import Mathlib

/-!
Verification model of the gdrive-sync reconciliation engine
(src/gdrive_sync/GdriveSync.py).

Conventions of the embedding:
* Timestamps are integer epochs (`Nat`).  The source compares the raw
  `st_mtime` float against an integer epoch and stores
  `int(st_mtime)`; on integer-valued mtimes both coincide, and the spec
  declares all persisted timestamps to be integers.
* Local paths are lists of path segments; `os.path.join parent name`
  becomes `parent ++ [name]`.
* Remote ids are naturals.  Fresh ids handed out by the remote store are
  modelled by a counter `supply`; every id below `supply` may already be
  in use.
* A reconciliation pass executes its effects immediately; the model
  threads the post-pass local and remote listings through the recursion,
  and a push, pull or create stamps the receiving side with `now`
  (modelled from the spec: a propagation updates the receiving side
  modification timestamp).
* Python dynamic-typing failures (AttributeError / TypeError) surface as
  `Except.error`; the source has no try/except, so an error aborts the
  whole call exactly as in Python.
-/

namespace GdriveSync

abbrev LocalPath := List String

/-- Local directory listing as consumed by `_compare_and_sync_files`:
each element is either an `os.DirEntry` (a file) or a one-entry dict
mapping the directory `os.DirEntry` to the listing of its children.
Encoded first-child/next-sibling so that all recursion is structural. -/
inductive LocalListing where
  | lnil
  | lfile (name : String) (path : LocalPath) (mtime : Nat) (rest : LocalListing)
  | ldir (name : String) (path : LocalPath) (mtime : Nat) (children : LocalListing) (rest : LocalListing)
deriving Repr, DecidableEq

/-- Remote listing as produced by `utils.list_remote_files_from_dir`:
objects with id, name, modifiedTime and, for folders
(mimeType application/vnd.google-apps.folder), nested children. -/
inductive RemoteListing where
  | rnil
  | rfile (id : Nat) (name : String) (mtime : Nat) (rest : RemoteListing)
  | rfolder (id : Nat) (name : String) (mtime : Nat) (children : RemoteListing) (rest : RemoteListing)
deriving Repr, DecidableEq

/-- Modelled from the spec: one row of the persistent sync ledger
(Db.DbHandler is not part of the sources; layout per spec section 6:
localPath TEXT UNIQUE, remoteId TEXT UNIQUE, two integer timestamps). -/
structure LedgerRecord where
  localPath : LocalPath
  remoteId : Nat
  lastLocalModifiedAt : Nat
  lastRemoteModifiedAt : Nat
deriving Repr, DecidableEq

abbrev Ledger := List LedgerRecord

/-- Modelled from the spec: point lookup of the record keyed by remoteId,
returning its localPath (DbHandler.get_local_file_path). -/
def get_local_file_path (db : Ledger) (id : Nat) : Option LocalPath :=
  (db.find? (fun rec => rec.remoteId == id)).map (·.localPath)

/-- Modelled from the spec: point lookup of the record keyed by localPath,
returning its remoteId (DbHandler.get_remote_file_id). -/
def get_remote_file_id (db : Ledger) (p : LocalPath) : Option Nat :=
  (db.find? (fun rec => rec.localPath == p)).map (·.remoteId)

/-- Modelled from the spec: lastLocalModifiedAt of the record keyed by
localPath (DbHandler.get_local_modification_date). -/
def get_local_modification_date (db : Ledger) (p : LocalPath) : Option Nat :=
  (db.find? (fun rec => rec.localPath == p)).map (·.lastLocalModifiedAt)

/-- Modelled from the spec: lastRemoteModifiedAt of the record keyed by
remoteId (DbHandler.get_remote_modification_date). -/
def get_remote_modification_date (db : Ledger) (id : Nat) : Option Nat :=
  (db.find? (fun rec => rec.remoteId == id)).map (·.lastRemoteModifiedAt)

/-- Modelled from the spec: upsert keyed by localPath; the persisted
layout declares both localPath and remoteId UNIQUE, so the write evicts
any row conflicting on either key (SQL REPLACE semantics) and appends
the new row. -/
def insert_record (db : Ledger) (p : LocalPath) (id : Nat) (ll lr : Nat) : Ledger :=
  (db.filter (fun rec => !(rec.localPath == p) && !(rec.remoteId == id))) ++
    [⟨p, id, ll, lr⟩]

/-- Modelled from the spec: delete the record keyed by localPath
(DbHandler.delete_record). -/
def delete_record (db : Ledger) (p : LocalPath) : Ledger :=
  db.filter (fun rec => !(rec.localPath == p))

/-- Python truthiness of an optional stored timestamp: `not x` is true
for None and for the integer 0. -/
def pyFalsyNat : Option Nat → Bool
  | none => true
  | some v => v == 0

/-- Python truthiness of an optional stored path: None and the empty
string are falsy. -/
def pyTruthyPath : Option LocalPath → Bool
  | none => false
  | some p => !p.isEmpty

/-- Python truthiness of an optional remote id: Drive ids are non-empty
strings, so presence is truthiness. -/
def pyTruthyId : Option Nat → Bool
  | none => false
  | some _ => true

/-- Side effects executed through `utils` and the local filesystem. -/
inductive Action where
  | deleteFileOnRemote (id : Nat)
  | createLocalDir (p : LocalPath)
  | overwriteRemoteFileWithLocal (id : Nat) (p : LocalPath)
  | copyRemoteFileToLocal (p : LocalPath) (id : Nat)
  | deleteFileFromLocal (p : LocalPath)
  | createRemoteDir (name : String) (parentId : Nat)
  | copyLocalFileToRemote (p : LocalPath) (parentId : Nat)
deriving Repr, DecidableEq

/-- Ledger mutations performed through the DbHandler, in execution order. -/
inductive DbOp where
  | insert (p : LocalPath) (id : Nat) (ll lr : Nat)
  | delete (p : LocalPath)
deriving Repr, DecidableEq

/-- Python runtime errors raised by the reconciler on type-confused
values; the source catches nothing, so they abort the call. -/
inductive SyncError where
  | attributeError
  | typeError
deriving Repr, DecidableEq

/-- Result of one reconciliation call: the actions and ledger operations
performed (in order), the final ledger and fresh-id counter, and the
post-pass listings of the reconciled level. -/
structure SyncResult where
  actions : List Action
  dbOps : List DbOp
  ledger : Ledger
  supply : Nat
  localOut : LocalListing
  remoteOut : RemoteListing
deriving Repr, DecidableEq

/-- Value stored in `local_file_dict` (lines 74-80 of the source): a
file keeps its DirEntry; a directory entry is stripped to its children
list (`local_file_dict[key.name] = file[key]`); name, path and mtime of
a stripped directory are carried only so the model can rebuild the
post-pass listing — the code itself can no longer reach them, and the
type test in `_copy_local_to_remote` sees a bare list. -/
inductive PendVal where
  | pfile (name : String) (path : LocalPath) (mtime : Nat)
  | pstripped (name : String) (path : LocalPath) (mtime : Nat) (children : LocalListing)
deriving Repr, DecidableEq

/-- Python dict insertion: an existing key keeps its position and takes
the new value, a new key is appended. -/
def dictInsert (d : List (String × PendVal)) (k : String) (v : PendVal) : List (String × PendVal) :=
  if d.any (fun kv => kv.1 == k) then
    d.map (fun kv => if kv.1 == k then (k, v) else kv)
  else d ++ [(k, v)]

def dictFind (d : List (String × PendVal)) (k : String) : Option PendVal :=
  (d.find? (fun kv => kv.1 == k)).map (·.2)

/-- Python `del d[k]`. -/
def dictErase (d : List (String × PendVal)) (k : String) : List (String × PendVal) :=
  d.filter (fun kv => !(kv.1 == k))

def dictKeys (d : List (String × PendVal)) : List String := d.map (·.1)

/-- Lines 74-80: build `local_file_dict` from the local listing. -/
def buildLocalDictFrom (d : List (String × PendVal)) : LocalListing → List (String × PendVal)
  | .lnil => d
  | .lfile n p m rest => buildLocalDictFrom (dictInsert d n (.pfile n p m)) rest
  | .ldir n p m c rest => buildLocalDictFrom (dictInsert d n (.pstripped n p m c)) rest

def buildLocalDict (l : LocalListing) : List (String × PendVal) :=
  buildLocalDictFrom [] l

/-- The association pairs of a listing in order; coincides with
`buildLocalDict` when the level names are unique. -/
def listingPairs : LocalListing → List (String × PendVal)
  | .lnil => []
  | .lfile n p m rest => (n, .pfile n p m) :: listingPairs rest
  | .ldir n p m c rest => (n, .pstripped n p m c) :: listingPairs rest

/-- Outcome of the matched-file comparison (lines 121-174): actions and
ledger operations performed, new ledger, and the post-pass mtimes of the
local and remote file (a pull rewrites the local file now, a push
rewrites the remote file now). -/
structure MatchedOutcome where
  actions : List Action
  dbOps : List DbOp
  ledger : Ledger
  localMtimeOut : Nat
  remoteMtimeOut : Nat
deriving Repr, DecidableEq

/-- Lines 121-174: a remote file whose name exists in the local dict as
a plain file.  Compares modification times, consults the ledger to tell
a genuinely new edit from the residue of a prior propagation, and pushes
or pulls accordingly. -/
def processMatchedFile (now : Nat) (ledger : Ledger) (localFilePath : LocalPath)
    (localMtime : Nat) (rid : Nat) (rmtime : Nat) : MatchedOutcome :=
  if localMtime > rmtime then
    let dbv := get_local_modification_date ledger localFilePath
    if pyFalsyNat dbv ∨ localMtime > dbv.getD 0 then
      ⟨[.overwriteRemoteFileWithLocal rid localFilePath],
       [.insert localFilePath rid localMtime now],
       insert_record ledger localFilePath rid localMtime now,
       localMtime, now⟩
    else ⟨[], [], ledger, localMtime, rmtime⟩
  else if rmtime > localMtime then
    let dbv := get_remote_modification_date ledger rid
    if pyFalsyNat dbv ∨ rmtime > dbv.getD 0 then
      ⟨[.copyRemoteFileToLocal localFilePath rid],
       [.insert localFilePath rid now rmtime],
       insert_record ledger localFilePath rid now rmtime,
       now, rmtime⟩
    else ⟨[], [], ledger, localMtime, rmtime⟩
  else ⟨[], [], ledger, localMtime, rmtime⟩

/-- Result of copying leftover local entries to the remote: actions and
ledger operations in order, final ledger and fresh-id counter, the local
entries that survive (deletion propagation removes some), and the remote
entries created. -/
structure CopyResult where
  actions : List Action
  dbOps : List DbOp
  ledger : Ledger
  supply : Nat
  localOut : LocalListing
  remoteOut : RemoteListing
deriving Repr, DecidableEq

/-- Outcome for one leftover local file (lines 223-238). -/
structure CopyFileOutcome where
  actions : List Action
  dbOps : List DbOp
  ledger : Ledger
  supply : Nat
  keptLocal : Option (String × LocalPath × Nat)
  createdRemote : Option (Nat × String)
deriving Repr, DecidableEq

/-- Lines 223-238 (the non-dict branch of `_copy_local_to_remote`): a
leftover local file.  If the ledger still maps its path to a remote id,
the remote counterpart was deleted, so delete the local file and the
record; otherwise create the file at the remote (fresh id) and insert a
record. -/
def copyOneFile (now : Nat) (n : String) (p : LocalPath) (m : Nat)
    (remoteParentDirId : Nat) (ledger : Ledger) (supply : Nat) : CopyFileOutcome :=
  if pyTruthyId (get_remote_file_id ledger p) then
    ⟨[.deleteFileFromLocal p], [.delete p], delete_record ledger p, supply, none, none⟩
  else
    ⟨[.copyLocalFileToRemote p remoteParentDirId],
     [.insert p supply m now],
     insert_record ledger p supply m now,
     supply + 1, some (n, p, m), some (supply, n)⟩

/-- Prepend the survivors of one leftover file to the tail result. -/
def consCopyFile (now : Nat) (fr : CopyFileOutcome) (rr : CopyResult) : CopyResult :=
  ⟨fr.actions ++ rr.actions, fr.dbOps ++ rr.dbOps, rr.ledger, rr.supply,
   (match fr.keptLocal with
    | some (n', p', m') => .lfile n' p' m' rr.localOut
    | none => rr.localOut),
   (match fr.createdRemote with
    | some (fid, n') => .rfile fid n' now rr.remoteOut
    | none => rr.remoteOut)⟩

/-- Lines 202-238 as reached from the recursion at line 220: there the
dict values are raw listing entries (`{file.name: file}`), so directory
entries still carry their DirEntry and take the dict branch.  A
directory with a live record is deleted locally together with its
record; otherwise it is created at the remote (fresh id) and its
children are copied recursively. -/
def copy_local_to_remote_entries (now : Nat) :
    LocalListing → Nat → Ledger → Nat → CopyResult
  | .lnil, _, ledger, supply => ⟨[], [], ledger, supply, .lnil, .rnil⟩
  | .lfile n p m rest, pid, ledger, supply =>
    let fr := copyOneFile now n p m pid ledger supply
    let rr := copy_local_to_remote_entries now rest pid fr.ledger fr.supply
    consCopyFile now fr rr
  | .ldir n p m children rest, pid, ledger, supply =>
    if pyTruthyId (get_remote_file_id ledger p) then
      let rr := copy_local_to_remote_entries now rest pid (delete_record ledger p) supply
      ⟨.deleteFileFromLocal p :: rr.actions, .delete p :: rr.dbOps,
       rr.ledger, rr.supply, rr.localOut, rr.remoteOut⟩
    else
      let fid := supply
      let cr := copy_local_to_remote_entries now children fid
                  (insert_record ledger p fid m now) (supply + 1)
      let rr := copy_local_to_remote_entries now rest pid cr.ledger cr.supply
      ⟨.createRemoteDir n pid :: (cr.actions ++ rr.actions),
       .insert p fid m now :: (cr.dbOps ++ rr.dbOps),
       rr.ledger, rr.supply,
       .ldir n p m cr.localOut rr.localOut,
       .rfolder fid n now cr.remoteOut rr.remoteOut⟩

/-- Lines 202-238 as called from line 200: the leftover
`local_file_dict` built at lines 74-80 holds stripped values, so a
leftover directory is a bare children list; `type(local_file) == dict`
is false for it, the else branch runs `local_file.path` on a list, and
Python raises AttributeError. -/
def copy_local_to_remote (now : Nat) :
    List (String × PendVal) → Nat → Ledger → Nat →
    Except SyncError CopyResult
  | [], _, ledger, supply => .ok ⟨[], [], ledger, supply, .lnil, .rnil⟩
  | (_, .pstripped _ _ _ _) :: _, _, _, _ => .error .attributeError
  | (_, .pfile n' p m) :: rest, pid, ledger, supply =>
    let fr := copyOneFile now n' p m pid ledger supply
    match copy_local_to_remote now rest pid fr.ledger fr.supply with
    | .error e => .error e
    | .ok rr => .ok (consCopyFile now fr rr)

/-- Lines 82-200: the loop over remote entries of
`_compare_and_sync_files`, threading the pending local dict, the ledger
and the fresh-id counter, followed (line 200) by
`_copy_local_to_remote` on the leftover dict. -/
def syncRemote (now : Nat) :
    RemoteListing → Nat → List (String × PendVal) → LocalPath → Ledger → Nat →
    Except SyncError SyncResult
  | .rnil, pid, pending, _, ledger, supply =>
    match copy_local_to_remote now pending pid ledger supply with
    | .error e => .error e
    | .ok cres =>
      .ok ⟨cres.actions, cres.dbOps, cres.ledger, cres.supply, cres.localOut, cres.remoteOut⟩
  | .rfolder rid rname rmtime children rest, pid, pending, parentDir, ledger, supply =>
    match dictFind pending rname with
    | none =>
      let p := parentDir ++ [rname]
      if pyTruthyPath (get_local_file_path ledger rid) then
        match syncRemote now rest pid pending parentDir (delete_record ledger p) supply with
        | .error e => .error e
        | .ok res =>
          .ok ⟨.deleteFileOnRemote rid :: res.actions, .delete p :: res.dbOps,
               res.ledger, res.supply, res.localOut, res.remoteOut⟩
      else
        match syncRemote now children rid (buildLocalDict .lnil) p
                (insert_record ledger p rid now rmtime) supply with
        | .error e => .error e
        | .ok resC =>
          match syncRemote now rest pid pending parentDir resC.ledger resC.supply with
          | .error e => .error e
          | .ok res =>
            .ok ⟨.createLocalDir p :: (resC.actions ++ res.actions),
                 .insert p rid now rmtime :: (resC.dbOps ++ res.dbOps),
                 res.ledger, res.supply,
                 .ldir rname p now resC.localOut res.localOut,
                 .rfolder rid rname rmtime resC.remoteOut res.remoteOut⟩
    | some (.pstripped _ lpath lmtime tmpChildren) =>
      match syncRemote now children rid (buildLocalDict tmpChildren)
              (parentDir ++ [rname]) ledger supply with
      | .error e => .error e
      | .ok resC =>
        match syncRemote now rest pid (dictErase pending rname) parentDir
                resC.ledger resC.supply with
        | .error e => .error e
        | .ok res =>
          .ok ⟨resC.actions ++ res.actions, resC.dbOps ++ res.dbOps,
               res.ledger, res.supply,
               .ldir rname lpath lmtime resC.localOut res.localOut,
               .rfolder rid rname rmtime resC.remoteOut res.remoteOut⟩
    | some (.pfile _ _ _) =>
      .error .typeError
  | .rfile rid rname rmtime rest, pid, pending, parentDir, ledger, supply =>
    match dictFind pending rname with
    | some (.pfile _ lpath lmtime) =>
      let mf := processMatchedFile now ledger lpath lmtime rid rmtime
      match syncRemote now rest pid (dictErase pending rname) parentDir mf.ledger supply with
      | .error e => .error e
      | .ok res =>
        .ok ⟨mf.actions ++ res.actions, mf.dbOps ++ res.dbOps, res.ledger, res.supply,
             .lfile rname lpath mf.localMtimeOut res.localOut,
             .rfile rid rname mf.remoteMtimeOut res.remoteOut⟩
    | some (.pstripped _ _ _ _) =>
      .error .attributeError
    | none =>
      let p := parentDir ++ [rname]
      if pyTruthyPath (get_local_file_path ledger rid) then
        match syncRemote now rest pid pending parentDir (delete_record ledger p) supply with
        | .error e => .error e
        | .ok res =>
          .ok ⟨.deleteFileOnRemote rid :: res.actions, .delete p :: res.dbOps,
               res.ledger, res.supply, res.localOut, res.remoteOut⟩
      else
        match syncRemote now rest pid pending parentDir
                (insert_record ledger p rid now rmtime) supply with
        | .error e => .error e
        | .ok res =>
          .ok ⟨.copyRemoteFileToLocal p rid :: res.actions,
               .insert p rid now rmtime :: res.dbOps,
               res.ledger, res.supply,
               .lfile rname p now res.localOut,
               .rfile rid rname rmtime res.remoteOut⟩

/-- Lines 47-200: `_compare_and_sync_files`.  Builds the name dict from
the local listing and runs the remote loop. -/
def compare_and_sync_files (now : Nat) (remote_files : RemoteListing)
    (remote_parent_dir_id : Nat) (local_files : LocalListing)
    (local_parent_dir : LocalPath) (ledger : Ledger) (supply : Nat) :
    Except SyncError SyncResult :=
  syncRemote now remote_files remote_parent_dir_id (buildLocalDict local_files)
    local_parent_dir ledger supply

/-- Lines 30-45: `_process_dir_pairs` for one (local dir, remote dir)
pair: insert the root-level record, then reconcile the children. -/
def process_dir_pair (now : Nat) (local_dir : LocalPath) (local_dir_mtime : Nat)
    (remote_dir_id : Nat) (remote_dir_mtime : Nat)
    (remote_files : RemoteListing) (local_files : LocalListing)
    (ledger : Ledger) (supply : Nat) :
    Except SyncError (List DbOp × SyncResult) :=
  let led := insert_record ledger local_dir remote_dir_id local_dir_mtime remote_dir_mtime
  match compare_and_sync_files now remote_files remote_dir_id local_files local_dir led supply with
  | .error e => .error e
  | .ok res =>
    .ok (.insert local_dir remote_dir_id local_dir_mtime remote_dir_mtime :: res.dbOps, res)

/-- A Python value reached while iterating the observer registry:
`_local_dir_observer_dict` maps local directory path strings to
watchdog Observer objects. -/
inductive PyObj where
  | pstr (s : String)
  | pobserver (o : Nat)
deriving Repr, DecidableEq

/-- Calling `.stop()` on a Python value: observers stop, strings have no
such attribute and raise AttributeError. -/
def callStop : PyObj → Except SyncError Nat
  | .pstr _ => .error .attributeError
  | .pobserver o => .ok o

/-- Lines 282-287: `stop_sync` iterates
`self._local_dir_observer_dict.keys()` — the local directory path
strings — and calls `.stop()` on each iterated value.  Returns the list
of observers actually stopped. -/
def stop_sync : List (String × Nat) → Except SyncError (List Nat)
  | [] => .ok []
  | (k, _) :: rest =>
    match callStop (.pstr k) with
    | .error e => .error e
    | .ok o =>
      match stop_sync rest with
      | .error e => .error e
      | .ok os => .ok (o :: os)

/-! ### Well-formedness of states

The predicates below describe ordinary listing and ledger states: names
are unique inside one folder on either side, remote ids are globally
unique, the path recorded on each local entry agrees with its position,
the ledger never holds two rows for one path or one remote id, the
fresh-id counter is above every id in use, and every ledger row whose
remote id still appears in the remote listing records the path at which
that id currently sits (no unprocessed remote rename). -/

/-- Names of the entries of one local listing level. -/
def localNames : LocalListing → List String
  | .lnil => []
  | .lfile n _ _ rest => n :: localNames rest
  | .ldir n _ _ _ rest => n :: localNames rest

/-- Names of the entries of one remote listing level. -/
def remoteNames : RemoteListing → List String
  | .rnil => []
  | .rfile _ n _ rest => n :: remoteNames rest
  | .rfolder _ n _ _ rest => n :: remoteNames rest

/-- Ids of all remote entries, at every depth. -/
def allRemoteIds : RemoteListing → List Nat
  | .rnil => []
  | .rfile i _ _ rest => i :: allRemoteIds rest
  | .rfolder i _ _ c rest => i :: (allRemoteIds c ++ allRemoteIds rest)

/-- Local names are unique inside every folder, at every depth. -/
def localNamesOK : LocalListing → Bool
  | .lnil => true
  | .lfile n _ _ rest => !(localNames rest).contains n && localNamesOK rest
  | .ldir n _ _ c rest =>
    !(localNames rest).contains n && localNamesOK c && localNamesOK rest

/-- Remote names are unique inside every folder, at every depth. -/
def remoteNamesOK : RemoteListing → Bool
  | .rnil => true
  | .rfile _ n _ rest => !(remoteNames rest).contains n && remoteNamesOK rest
  | .rfolder _ n _ c rest =>
    !(remoteNames rest).contains n && remoteNamesOK c && remoteNamesOK rest

/-- The path field stored on every local entry is its parent directory
followed by its own name, at every depth. -/
def localPathsOK (d : LocalPath) : LocalListing → Bool
  | .lnil => true
  | .lfile n p _ rest => p == d ++ [n] && localPathsOK d rest
  | .ldir n p _ c rest =>
    p == d ++ [n] && localPathsOK (d ++ [n]) c && localPathsOK d rest

/-- Path and id of every remote entry, at every depth, with paths taken
below the given directory. -/
def remotePathEntries (d : LocalPath) : RemoteListing → List (LocalPath × Nat)
  | .rnil => []
  | .rfile i n _ rest => (d ++ [n], i) :: remotePathEntries d rest
  | .rfolder i n _ c rest =>
    (d ++ [n], i) :: (remotePathEntries (d ++ [n]) c ++ remotePathEntries d rest)

/-- Every ledger row whose remote id appears in the remote listing
records exactly the path at which that id currently sits. -/
def ConsistentWith (d : LocalPath) (rl : RemoteListing) (db : Ledger) : Prop :=
  ∀ rec ∈ db, ∀ pi ∈ remotePathEntries d rl, rec.remoteId = pi.2 → rec.localPath = pi.1

instance (d : LocalPath) (rl : RemoteListing) (db : Ledger) :
    Decidable (ConsistentWith d rl db) := by
  unfold ConsistentWith; infer_instance

/-- No two ledger rows share a local path. -/
def dbPathsNodup (db : Ledger) : Prop := (db.map (·.localPath)).Nodup

/-- No two ledger rows share a remote id. -/
def dbIdsNodup (db : Ledger) : Prop := (db.map (·.remoteId)).Nodup

instance (db : Ledger) : Decidable (dbPathsNodup db) := by
  unfold dbPathsNodup; infer_instance

instance (db : Ledger) : Decidable (dbIdsNodup db) := by
  unfold dbIdsNodup; infer_instance

/-- The fresh-id counter is above every remote id in use. -/
def FreshSupply (supply : Nat) (rl : RemoteListing) (db : Ledger) : Prop :=
  (∀ i ∈ allRemoteIds rl, i < supply) ∧ ∀ rec ∈ db, rec.remoteId < supply

instance (supply : Nat) (rl : RemoteListing) (db : Ledger) :
    Decidable (FreshSupply supply rl db) := by
  unfold FreshSupply; infer_instance

/-! ### The synchronized-state predicate

A level is synchronized with respect to a ledger when the two listings
match name for name, matched folders are recursively synchronized, and
every matched file pair fails both the push condition and the pull
condition of `processMatchedFile`. -/

/-- The matched-file comparison of lines 127-173 takes neither branch. -/
def fileSyncedB (db : Ledger) (lpath : LocalPath) (lm rid rm : Nat) : Bool :=
  if lm > rm then
    !(pyFalsyNat (get_local_modification_date db lpath) ||
      decide (lm > (get_local_modification_date db lpath).getD 0))
  else if rm > lm then
    !(pyFalsyNat (get_remote_modification_date db rid) ||
      decide (rm > (get_remote_modification_date db rid).getD 0))
  else true

/-- Synchronization of a remote level against a pending local dict. -/
def syncedPendB (db : Ledger) : RemoteListing → List (String × PendVal) → Bool
  | .rnil, pending => pending.isEmpty
  | .rfolder _ rname _ children rest, pending =>
    match dictFind pending rname with
    | some (.pstripped _ _ _ c) =>
      syncedPendB db children (buildLocalDict c) &&
        syncedPendB db rest (dictErase pending rname)
    | _ => false
  | .rfile rid rname rm rest, pending =>
    match dictFind pending rname with
    | some (.pfile _ lpath lm) =>
      fileSyncedB db lpath lm rid rm && syncedPendB db rest (dictErase pending rname)
    | _ => false

/-- Synchronization of a remote listing against a local listing. -/
def syncedB (db : Ledger) (rl : RemoteListing) (ll : LocalListing) : Bool :=
  syncedPendB db rl (buildLocalDict ll)

/-- Path targeted by a ledger operation. -/
def dbOpPath : DbOp → LocalPath
  | .insert p _ _ _ => p
  | .delete p => p

/-- Remote id written by a ledger operation, if it is an insert. -/
def dbOpInsertId : DbOp → Option Nat
  | .insert _ i _ _ => some i
  | .delete _ => none

/-- An action is a push or a pull of file content. -/
def isPushOrPull : Action → Bool
  | .overwriteRemoteFileWithLocal _ _ => true
  | .copyRemoteFileToLocal _ _ => true
  | _ => false

/-- The path lies strictly below the directory. -/
def StrictUnder (d p : LocalPath) : Prop := ∃ s, s ≠ [] ∧ p = d ++ s

/-- Well-formedness of a pending local dict below a directory: keys are
unique, each value is keyed by its own name, carries the path of its
position, and a stripped directory value is recursively well formed. -/
def PendingOK (d : LocalPath) (pending : List (String × PendVal)) : Prop :=
  (dictKeys pending).Nodup ∧
  ∀ kv ∈ pending,
    match kv.2 with
    | .pfile n p _ => kv.1 = n ∧ p = d ++ [n]
    | .pstripped n p _ c =>
      kv.1 = n ∧ p = d ++ [n] ∧ localPathsOK (d ++ [n]) c = true ∧
        localNamesOK c = true

/-- A matched file pair is backed by ledger rows that block both the
push and the pull branch; the row consulted by the pull branch carries
the remote id of the pair. -/
def FileAligned (db : Ledger) (lpath : LocalPath) (lm rid rm : Nat) : Prop :=
  (lm > rm → ∃ rec ∈ db, rec.localPath = lpath ∧ lm ≤ rec.lastLocalModifiedAt ∧
    rec.lastLocalModifiedAt ≠ 0) ∧
  (rm > lm → ∃ rec ∈ db, rec.localPath = lpath ∧ rec.remoteId = rid ∧
    rm ≤ rec.lastRemoteModifiedAt ∧ rec.lastRemoteModifiedAt ≠ 0)

/-- Alignment of a remote level against a pending local dict: listings
match name for name, matched folders are recursively aligned, and every
matched file pair is backed by blocking ledger rows. -/
def AlignedPend (db : Ledger) : RemoteListing → List (String × PendVal) → Prop
  | .rnil, pending => pending = []
  | .rfolder _ rname _ children rest, pending =>
    (∃ n p m c, dictFind pending rname = some (.pstripped n p m c) ∧
      AlignedPend db children (buildLocalDict c)) ∧
    AlignedPend db rest (dictErase pending rname)
  | .rfile rid rname rm rest, pending =>
    (∃ n lpath lm, dictFind pending rname = some (.pfile n lpath lm) ∧
      FileAligned db lpath lm rid rm) ∧
    AlignedPend db rest (dictErase pending rname)

/-- What one successful reconciliation call establishes about its
result, relative to its inputs: the output listings are aligned with the
output ledger (so a repeat run is action-free), every ledger operation
targets a path strictly below the parent directory whose first new
segment is a processed name, inserted remote ids come from the remote
listing or from the fresh-id range consumed by the call, rows of the
input ledger not targeted by any operation survive, the output ledger
keeps unique paths and ids below the output counter, every output row is
an input row or matches an insert operation, and the output listings are
well formed with names drawn from the processed names. -/
structure Estab (remotes : RemoteListing) (pending : List (String × PendVal))
    (parentDir : LocalPath) (db : Ledger) (supply : Nat) (res : SyncResult) : Prop where
  aligned : AlignedPend res.ledger res.remoteOut (buildLocalDict res.localOut)
  opsPath : ∀ op ∈ res.dbOps, ∃ n s, dbOpPath op = parentDir ++ n :: s ∧
    (n ∈ dictKeys pending ∨ n ∈ remoteNames remotes)
  opsInsId : ∀ op ∈ res.dbOps, ∀ i, dbOpInsertId op = some i →
    i ∈ allRemoteIds remotes ∨ (supply ≤ i ∧ i < res.supply)
  supplyLe : supply ≤ res.supply
  pres : ∀ rec ∈ db, (∀ op ∈ res.dbOps, dbOpPath op ≠ rec.localPath) →
    (∀ op ∈ res.dbOps, dbOpInsertId op ≠ some rec.remoteId) → rec ∈ res.ledger
  nodupP : dbPathsNodup res.ledger
  nodupI : dbIdsNodup res.ledger
  freshOut : ∀ rec ∈ res.ledger, rec.remoteId < res.supply
  newRec : ∀ rec ∈ res.ledger, rec ∈ db ∨
    ∃ ll lr, DbOp.insert rec.localPath rec.remoteId ll lr ∈ res.dbOps
  lPathsOK : localPathsOK parentDir res.localOut = true
  lNamesOK : localNamesOK res.localOut = true
  lNamesSub : ∀ n ∈ localNames res.localOut, n ∈ dictKeys pending ∨ n ∈ remoteNames remotes
  rNamesSub : ∀ n ∈ remoteNames res.remoteOut, n ∈ dictKeys pending ∨ n ∈ remoteNames remotes
  ridsOut : ∀ i ∈ allRemoteIds res.remoteOut,
    i ∈ allRemoteIds remotes ∨ (supply ≤ i ∧ i < res.supply)

/-- The analogue of `Estab` for `copy_local_to_remote`, which sees no
remote listing: processed names are the keys of the leftover dict and
every inserted id is fresh. -/
structure CopyEstab (pending : List (String × PendVal)) (parentDir : LocalPath)
    (db : Ledger) (supply : Nat) (cres : CopyResult) : Prop where
  aligned : AlignedPend cres.ledger cres.remoteOut (buildLocalDict cres.localOut)
  opsPath : ∀ op ∈ cres.dbOps, ∃ n s, dbOpPath op = parentDir ++ n :: s ∧
    n ∈ dictKeys pending
  opsInsId : ∀ op ∈ cres.dbOps, ∀ i, dbOpInsertId op = some i →
    supply ≤ i ∧ i < cres.supply
  supplyLe : supply ≤ cres.supply
  pres : ∀ rec ∈ db, (∀ op ∈ cres.dbOps, dbOpPath op ≠ rec.localPath) →
    (∀ op ∈ cres.dbOps, dbOpInsertId op ≠ some rec.remoteId) → rec ∈ cres.ledger
  nodupP : dbPathsNodup cres.ledger
  nodupI : dbIdsNodup cres.ledger
  freshOut : ∀ rec ∈ cres.ledger, rec.remoteId < cres.supply
  newRec : ∀ rec ∈ cres.ledger, rec ∈ db ∨
    ∃ ll lr, DbOp.insert rec.localPath rec.remoteId ll lr ∈ cres.dbOps
  lPathsOK : localPathsOK parentDir cres.localOut = true
  lNamesOK : localNamesOK cres.localOut = true
  lNamesSub : ∀ n ∈ localNames cres.localOut, n ∈ dictKeys pending
  rNamesSub : ∀ n ∈ remoteNames cres.remoteOut, n ∈ dictKeys pending
  ridsOut : ∀ i ∈ allRemoteIds cres.remoteOut, supply ≤ i ∧ i < cres.supply

/-! ### Toolkit: ledger lemmas -/

theorem mem_insert_record {db : Ledger} {p : LocalPath} {i ll lr : Nat} {rec : LedgerRecord} :
    rec ∈ insert_record db p i ll lr ↔
      (rec ∈ db ∧ rec.localPath ≠ p ∧ rec.remoteId ≠ i) ∨ rec = ⟨p, i, ll, lr⟩ := by
  simp [insert_record, List.mem_filter, List.mem_append, and_assoc]

theorem mem_delete_record {db : Ledger} {p : LocalPath} {rec : LedgerRecord} :
    rec ∈ delete_record db p ↔ rec ∈ db ∧ rec.localPath ≠ p := by
  simp [delete_record, List.mem_filter]

theorem insert_record_keeps {db : Ledger} {p : LocalPath} {i ll lr : Nat} {rec : LedgerRecord}
    (h : rec ∈ db) (hp : rec.localPath ≠ p) (hi : rec.remoteId ≠ i) :
    rec ∈ insert_record db p i ll lr :=
  mem_insert_record.mpr (Or.inl ⟨h, hp, hi⟩)

theorem delete_record_keeps {db : Ledger} {p : LocalPath} {rec : LedgerRecord}
    (h : rec ∈ db) (hp : rec.localPath ≠ p) : rec ∈ delete_record db p :=
  mem_delete_record.mpr ⟨h, hp⟩

theorem dbPathsNodup_insert {db : Ledger} {p : LocalPath} {i ll lr : Nat}
    (h : dbPathsNodup db) : dbPathsNodup (insert_record db p i ll lr) := by
  unfold dbPathsNodup insert_record
  rw [List.map_append, List.nodup_append]
  refine ⟨((List.filter_sublist _).map _).nodup h, List.nodup_singleton _, ?_⟩
  intro q hq
  simp only [List.mem_map, List.mem_filter, Bool.and_eq_true, Bool.not_eq_true',
    beq_eq_false_iff_ne] at hq
  obtain ⟨rec, ⟨-, hne, -⟩, rfl⟩ := hq
  simp [hne]

theorem dbIdsNodup_insert {db : Ledger} {p : LocalPath} {i ll lr : Nat}
    (h : dbIdsNodup db) : dbIdsNodup (insert_record db p i ll lr) := by
  unfold dbIdsNodup insert_record
  rw [List.map_append, List.nodup_append]
  refine ⟨((List.filter_sublist _).map _).nodup h, List.nodup_singleton _, ?_⟩
  intro q hq
  simp only [List.mem_map, List.mem_filter, Bool.and_eq_true, Bool.not_eq_true',
    beq_eq_false_iff_ne] at hq
  obtain ⟨rec, ⟨-, -, hne⟩, rfl⟩ := hq
  simp [hne]

theorem dbPathsNodup_delete {db : Ledger} {p : LocalPath}
    (h : dbPathsNodup db) : dbPathsNodup (delete_record db p) :=
  ((List.filter_sublist _).map _).nodup h

theorem dbIdsNodup_delete {db : Ledger} {p : LocalPath}
    (h : dbIdsNodup db) : dbIdsNodup (delete_record db p) :=
  ((List.filter_sublist _).map _).nodup h

theorem find_path_eq {db : Ledger} (h : dbPathsNodup db) {rec : LedgerRecord}
    (hm : rec ∈ db) {p : LocalPath} (hp : rec.localPath = p) :
    db.find? (fun r => r.localPath == p) = some rec := by
  induction db with
  | nil => cases hm
  | cons a tl ih =>
    rcases List.mem_cons.mp hm with rfl | htl
    · simp [List.find?_cons, hp]
    · have hane : (a.localPath == p) = false := by
        have : a.localPath ≠ p := by
          intro hcontra
          have : rec.localPath ∈ tl.map (·.localPath) := List.mem_map_of_mem _ htl
          rw [hp, ← hcontra] at this
          exact (List.nodup_cons.mp h).1 this
        simpa using this
      rw [List.find?_cons, hane]
      exact ih (List.nodup_cons.mp h).2 htl

theorem find_id_eq {db : Ledger} (h : dbIdsNodup db) {rec : LedgerRecord}
    (hm : rec ∈ db) {i : Nat} (hi : rec.remoteId = i) :
    db.find? (fun r => r.remoteId == i) = some rec := by
  induction db with
  | nil => cases hm
  | cons a tl ih =>
    rcases List.mem_cons.mp hm with rfl | htl
    · simp [List.find?_cons, hi]
    · have hane : (a.remoteId == i) = false := by
        have : a.remoteId ≠ i := by
          intro hcontra
          have : rec.remoteId ∈ tl.map (·.remoteId) := List.mem_map_of_mem _ htl
          rw [hi, ← hcontra] at this
          exact (List.nodup_cons.mp h).1 this
        simpa using this
      rw [List.find?_cons, hane]
      exact ih (List.nodup_cons.mp h).2 htl

theorem find_path_none {db : Ledger} {p : LocalPath}
    (h : ∀ rec ∈ db, rec.localPath ≠ p) :
    db.find? (fun r => r.localPath == p) = none := by
  rw [List.find?_eq_none]
  intro rec hm
  simpa using h rec hm

theorem find_id_none {db : Ledger} {i : Nat}
    (h : ∀ rec ∈ db, rec.remoteId ≠ i) :
    db.find? (fun r => r.remoteId == i) = none := by
  rw [List.find?_eq_none]
  intro rec hm
  simpa using h rec hm

theorem glmd_eq {db : Ledger} (h : dbPathsNodup db) {rec : LedgerRecord}
    (hm : rec ∈ db) {p : LocalPath} (hp : rec.localPath = p) :
    get_local_modification_date db p = some rec.lastLocalModifiedAt := by
  unfold get_local_modification_date
  rw [find_path_eq h hm hp]
  rfl

theorem grmd_eq {db : Ledger} (h : dbIdsNodup db) {rec : LedgerRecord}
    (hm : rec ∈ db) {i : Nat} (hi : rec.remoteId = i) :
    get_remote_modification_date db i = some rec.lastRemoteModifiedAt := by
  unfold get_remote_modification_date
  rw [find_id_eq h hm hi]
  rfl

theorem grfi_eq {db : Ledger} (h : dbPathsNodup db) {rec : LedgerRecord}
    (hm : rec ∈ db) {p : LocalPath} (hp : rec.localPath = p) :
    get_remote_file_id db p = some rec.remoteId := by
  unfold get_remote_file_id
  rw [find_path_eq h hm hp]
  rfl

theorem glfp_eq {db : Ledger} (h : dbIdsNodup db) {rec : LedgerRecord}
    (hm : rec ∈ db) {i : Nat} (hi : rec.remoteId = i) :
    get_local_file_path db i = some rec.localPath := by
  unfold get_local_file_path
  rw [find_id_eq h hm hi]
  rfl

theorem glfp_none {db : Ledger} {i : Nat} (h : ∀ rec ∈ db, rec.remoteId ≠ i) :
    get_local_file_path db i = none := by
  unfold get_local_file_path
  rw [find_id_none h]
  rfl

theorem grfi_none {db : Ledger} {p : LocalPath} (h : ∀ rec ∈ db, rec.localPath ≠ p) :
    get_remote_file_id db p = none := by
  unfold get_remote_file_id
  rw [find_path_none h]
  rfl

theorem no_rec_of_falsy_id {db : Ledger} {i : Nat}
    (h : pyTruthyPath (get_local_file_path db i) = false) {q : LocalPath}
    (hcons : ∀ rec ∈ db, rec.remoteId = i → rec.localPath = q) (hq : q ≠ []) :
    ∀ rec ∈ db, rec.remoteId ≠ i := by
  intro rec hm hi
  have hsome : (db.find? (fun r => r.remoteId == i)).isSome := by
    rw [List.find?_isSome]
    exact ⟨rec, hm, by simp [hi]⟩
  rcases hfind : db.find? (fun r => r.remoteId == i) with _ | found
  · rw [hfind] at hsome; cases hsome
  · have hfm : found ∈ db := List.mem_of_find?_eq_some hfind
    have hfi : found.remoteId = i := by
      have := List.find?_some hfind
      simpa using this
    have hfp : found.localPath = q := hcons found hfm hfi
    have hfalse : pyTruthyPath (some found.localPath) = false := by
      unfold get_local_file_path at h
      rw [hfind] at h
      simpa using h
    have hempty : found.localPath = [] := by
      by_contra hne
      simp [pyTruthyPath, List.isEmpty_iff, hne] at hfalse
    exact hq (hfp ▸ hempty)

/-! ### Toolkit: dict and listing lemmas -/

theorem dictFind_some_mem {d : List (String × PendVal)} {k : String} {v : PendVal}
    (h : dictFind d k = some v) : (k, v) ∈ d := by
  unfold dictFind at h
  rcases hfind : d.find? (fun kv => kv.1 == k) with _ | kv
  · rw [hfind] at h; cases h
  · rw [hfind] at h
    have hm : kv ∈ d := List.mem_of_find?_eq_some hfind
    have hk : kv.1 = k := by simpa using List.find?_some hfind
    have hv : kv.2 = v := by simpa using h
    have : kv = (k, v) := Prod.ext hk hv
    exact this ▸ hm

theorem dictFind_none_iff {d : List (String × PendVal)} {k : String} :
    dictFind d k = none ↔ ∀ kv ∈ d, kv.1 ≠ k := by
  unfold dictFind
  constructor
  · intro h kv hm hk
    rcases hfind : List.find? (fun kv => kv.1 == k) d with _ | kv'
    · exact absurd (List.find?_eq_none.mp hfind kv hm) (by simp [hk])
    · rw [hfind] at h; cases h
  · intro h
    rw [List.find?_eq_none.mpr (fun kv hm => by simpa using h kv hm)]
    rfl

theorem mem_dictErase {d : List (String × PendVal)} {k : String} {kv : String × PendVal} :
    kv ∈ dictErase d k ↔ kv ∈ d ∧ kv.1 ≠ k := by
  simp [dictErase, List.mem_filter]

theorem dictKeys_erase_subset {d : List (String × PendVal)} {k n : String}
    (h : n ∈ dictKeys (dictErase d k)) : n ∈ dictKeys d ∧ n ≠ k := by
  simp only [dictKeys, List.mem_map] at h ⊢
  obtain ⟨kv, hm, rfl⟩ := h
  have := mem_dictErase.mp hm
  exact ⟨⟨kv, this.1, rfl⟩, this.2⟩

theorem dictKeys_nodup_erase {d : List (String × PendVal)} {k : String}
    (h : (dictKeys d).Nodup) : (dictKeys (dictErase d k)).Nodup := by
  induction d with
  | nil => simp [dictErase, dictKeys]
  | cons kv tl ih =>
    simp only [dictKeys, List.map_cons, List.nodup_cons] at h
    by_cases hk : kv.1 = k
    · simpa [dictErase, dictKeys, List.filter_cons, hk] using ih h.2
    · have : dictErase (kv :: tl) k = kv :: dictErase tl k := by
        simp [dictErase, List.filter_cons, hk]
      rw [this]
      simp only [dictKeys, List.map_cons, List.nodup_cons]
      refine ⟨fun hmem => ?_, ih h.2⟩
      exact h.1 ((dictKeys_erase_subset (d := tl) (k := k) hmem).1)

theorem notMem_dictKeys_of_find_none {d : List (String × PendVal)} {k : String}
    (h : dictFind d k = none) : k ∉ dictKeys d := by
  intro hmem
  simp only [dictKeys, List.mem_map] at hmem
  obtain ⟨kv, hm, hk⟩ := hmem
  exact dictFind_none_iff.mp h kv hm hk

theorem self_notMem_dictKeys_erase {d : List (String × PendVal)} {k : String} :
    k ∉ dictKeys (dictErase d k) := by
  intro hmem
  exact (dictKeys_erase_subset hmem).2 rfl

theorem pendingOK_erase {D : LocalPath} {pending : List (String × PendVal)} {k : String}
    (h : PendingOK D pending) : PendingOK D (dictErase pending k) :=
  ⟨dictKeys_nodup_erase h.1, fun kv hm => h.2 kv (mem_dictErase.mp hm).1⟩

theorem pendingOK_pfile {D : LocalPath} {pending : List (String × PendVal)}
    {k n : String} {p : LocalPath} {m : Nat} (h : PendingOK D pending)
    (hf : dictFind pending k = some (.pfile n p m)) :
    n = k ∧ p = D ++ [k] := by
  have := h.2 _ (dictFind_some_mem hf)
  simp only at this
  exact ⟨this.1.symm, this.1 ▸ this.2⟩

theorem pendingOK_pstripped {D : LocalPath} {pending : List (String × PendVal)}
    {k n : String} {p : LocalPath} {m : Nat} {c : LocalListing} (h : PendingOK D pending)
    (hf : dictFind pending k = some (.pstripped n p m c)) :
    n = k ∧ p = D ++ [k] ∧ localPathsOK (D ++ [k]) c = true ∧ localNamesOK c = true := by
  have := h.2 _ (dictFind_some_mem hf)
  simp only at this
  exact ⟨this.1.symm, this.1 ▸ this.2.1, this.1 ▸ this.2.2.1, this.2.2.2⟩

theorem localNamesOK_nodup {l : LocalListing} (h : localNamesOK l = true) :
    (localNames l).Nodup := by
  induction l with
  | lnil => simp [localNames]
  | lfile n p m rest ih =>
    simp only [localNamesOK, Bool.and_eq_true, Bool.not_eq_true'] at h
    simp only [localNames, List.nodup_cons]
    exact ⟨by simpa using h.1, ih h.2⟩
  | ldir n p m c rest ihc ih =>
    simp only [localNamesOK, Bool.and_eq_true, Bool.not_eq_true'] at h
    simp only [localNames, List.nodup_cons]
    exact ⟨by simpa using h.1.1, ih h.2⟩

theorem dictInsert_absent {d : List (String × PendVal)} {k : String} {v : PendVal}
    (h : ∀ kv ∈ d, kv.1 ≠ k) : dictInsert d k v = d ++ [(k, v)] := by
  unfold dictInsert
  have : d.any (fun kv => kv.1 == k) = false := by
    rw [List.any_eq_false]
    intro kv hm
    simpa using h kv hm
  rw [this]
  simp

theorem buildLocalDictFrom_eq (l : LocalListing) :
    ∀ d : List (String × PendVal), (∀ n ∈ localNames l, ∀ kv ∈ d, kv.1 ≠ n) →
      (localNames l).Nodup → buildLocalDictFrom d l = d ++ listingPairs l := by
  induction l with
  | lnil => intro d _ _; simp [buildLocalDictFrom, listingPairs]
  | lfile n p m rest ih =>
    intro d hd hnd
    simp only [localNames, List.nodup_cons] at hnd
    simp only [buildLocalDictFrom, listingPairs]
    rw [dictInsert_absent (fun kv hm => hd n (by simp [localNames]) kv hm)]
    have harg : ∀ n' ∈ localNames rest, ∀ kv ∈ d ++ [(n, PendVal.pfile n p m)], kv.1 ≠ n' := by
      intro n' hn' kv hkv
      rcases List.mem_append.mp hkv with hkv | hkv
      · exact hd n' (by simp [localNames, hn']) kv hkv
      · simp only [List.mem_singleton] at hkv
        subst hkv
        simp only
        intro hcontra
        subst hcontra
        exact hnd.1 hn'
    rw [ih _ harg hnd.2]
    simp
  | ldir n p m c rest ihc ih =>
    intro d hd hnd
    simp only [localNames, List.nodup_cons] at hnd
    simp only [buildLocalDictFrom, listingPairs]
    rw [dictInsert_absent (fun kv hm => hd n (by simp [localNames]) kv hm)]
    have harg : ∀ n' ∈ localNames rest, ∀ kv ∈ d ++ [(n, PendVal.pstripped n p m c)], kv.1 ≠ n' := by
      intro n' hn' kv hkv
      rcases List.mem_append.mp hkv with hkv | hkv
      · exact hd n' (by simp [localNames, hn']) kv hkv
      · simp only [List.mem_singleton] at hkv
        subst hkv
        simp only
        intro hcontra
        subst hcontra
        exact hnd.1 hn'
    rw [ih _ harg hnd.2]
    simp

theorem buildLocalDict_eq {l : LocalListing} (h : localNamesOK l = true) :
    buildLocalDict l = listingPairs l := by
  unfold buildLocalDict
  rw [buildLocalDictFrom_eq l [] (by intro n _ kv hkv; cases hkv) (localNamesOK_nodup h)]
  simp

theorem dictKeys_listingPairs (l : LocalListing) : dictKeys (listingPairs l) = localNames l := by
  induction l with
  | lnil => rfl
  | lfile n p m rest ih => simp [listingPairs, dictKeys, localNames] at ih ⊢; exact ih
  | ldir n p m c rest ihc ih => simp [listingPairs, dictKeys, localNames] at ih ⊢; exact ih

theorem pendingOK_build {D : LocalPath} {l : LocalListing}
    (hp : localPathsOK D l = true) (hn : localNamesOK l = true) :
    PendingOK D (buildLocalDict l) := by
  rw [buildLocalDict_eq hn]
  constructor
  · rw [dictKeys_listingPairs]
    exact localNamesOK_nodup hn
  · induction l with
    | lnil => intro kv hm; cases hm
    | lfile n p m rest ih =>
      simp only [localPathsOK, localNamesOK, Bool.and_eq_true, beq_iff_eq] at hp hn
      intro kv hm
      rcases List.mem_cons.mp hm with rfl | hm
      · exact ⟨rfl, hp.1⟩
      · exact ih hp.2 hn.2 kv hm
    | ldir n p m c rest ihc ih =>
      simp only [localPathsOK, localNamesOK, Bool.and_eq_true, beq_iff_eq] at hp hn
      intro kv hm
      rcases List.mem_cons.mp hm with rfl | hm
      · exact ⟨rfl, hp.1.1, hp.1.2, hn.1.2⟩
      · exact ih hp.2 hn.2 kv hm

theorem dictFind_cons_self {d : List (String × PendVal)} {k : String} {v : PendVal} :
    dictFind ((k, v) :: d) k = some v := by
  simp [dictFind, List.find?_cons_of_pos]

theorem dictFind_cons_ne {d : List (String × PendVal)} {k k' : String} {v : PendVal}
    (h : k' ≠ k) : dictFind ((k', v) :: d) k = dictFind d k := by
  unfold dictFind
  rw [List.find?_cons_of_neg]
  simpa using h

theorem dictErase_cons_self {d : List (String × PendVal)} {k : String} {v : PendVal}
    (h : ∀ kv ∈ d, kv.1 ≠ k) : dictErase ((k, v) :: d) k = d := by
  unfold dictErase
  rw [List.filter_cons, if_neg (by simp), List.filter_eq_self]
  intro kv hm
  simpa using h kv hm

theorem dictErase_cons_ne {d : List (String × PendVal)} {k k' : String} {v : PendVal}
    (h : k' ≠ k) : dictErase ((k', v) :: d) k = (k', v) :: dictErase d k := by
  unfold dictErase
  rw [List.filter_cons]
  simp [h]

/-! ### Toolkit: path lemmas -/

theorem strictUnder_cons (D : LocalPath) (n : String) (s : LocalPath) :
    StrictUnder D (D ++ n :: s) := ⟨n :: s, by simp, rfl⟩

theorem strictUnder_of_deeper {D : LocalPath} {n : String} {p : LocalPath}
    (h : StrictUnder (D ++ [n]) p) : StrictUnder D p := by
  obtain ⟨s, hs, rfl⟩ := h
  exact ⟨n :: s, by simp, by simp⟩

theorem not_strictUnder_self (D : LocalPath) : ¬ StrictUnder D D := by
  rintro ⟨s, hs, hD⟩
  have h2 : D ++ s = D ++ [] := by rw [List.append_nil]; exact hD.symm
  exact hs (List.append_cancel_left h2)

theorem strictUnder_head {D : LocalPath} {n : String} {p : LocalPath}
    (h : StrictUnder (D ++ [n]) p) : ∃ s, p = D ++ n :: s := by
  obtain ⟨s, _, rfl⟩ := h
  exact ⟨s, by simp⟩

theorem head_eq_of_eq {D : LocalPath} {n n' : String} {s s' : LocalPath}
    (h : D ++ n :: s = D ++ n' :: s') : n = n' ∧ s = s' := by
  have := List.append_cancel_left h
  exact ⟨by injection this, by injection this⟩

theorem not_strictUnder_of_head_ne {D : LocalPath} {n n' : String} {s : LocalPath}
    (hne : n ≠ n') : ¬ StrictUnder (D ++ [n]) (D ++ n' :: s) := by
  intro h
  obtain ⟨s', hs'⟩ := strictUnder_head h
  exact hne (head_eq_of_eq hs').1.symm

theorem head_ne_self {D : LocalPath} {n n' : String} {s : LocalPath}
    (hne : n ≠ n') : D ++ n :: s ≠ D ++ [n'] := by
  intro h
  exact hne (head_eq_of_eq h).1

/-! ### Toolkit: no-op runs on synchronized states -/

theorem processMatchedFile_noop (now : Nat) {db : Ledger} {lpath : LocalPath} {lm rid rm : Nat}
    (h : fileSyncedB db lpath lm rid rm = true) :
    processMatchedFile now db lpath lm rid rm = ⟨[], [], db, lm, rm⟩ := by
  unfold fileSyncedB at h
  unfold processMatchedFile
  by_cases h1 : lm > rm
  · rw [if_pos h1] at h ⊢
    simp only [Bool.not_eq_true', Bool.or_eq_false_iff, decide_eq_false_iff_not] at h
    rw [if_neg]
    rintro (hf | hgt)
    · rw [h.1] at hf; cases hf
    · exact h.2 hgt
  · rw [if_neg h1] at h ⊢
    by_cases h2 : rm > lm
    · rw [if_pos h2] at h ⊢
      simp only [Bool.not_eq_true', Bool.or_eq_false_iff, decide_eq_false_iff_not] at h
      rw [if_neg]
      rintro (hf | hgt)
      · rw [h.1] at hf; cases hf
      · exact h.2 hgt
    · rw [if_neg h2]

theorem fileAligned_syncedB {db : Ledger} {lpath : LocalPath} {lm rid rm : Nat}
    (hP : dbPathsNodup db) (hI : dbIdsNodup db)
    (h : FileAligned db lpath lm rid rm) : fileSyncedB db lpath lm rid rm = true := by
  unfold fileSyncedB
  by_cases h1 : lm > rm
  · rw [if_pos h1]
    obtain ⟨rec, hm, hp, hle, hne⟩ := h.1 h1
    rw [glmd_eq hP hm hp]
    have hd : decide (lm > rec.lastLocalModifiedAt) = false := decide_eq_false (not_lt.mpr hle)
    simp [pyFalsyNat, hne, hd]
  · rw [if_neg h1]
    by_cases h2 : rm > lm
    · rw [if_pos h2]
      obtain ⟨rec, hm, hp, hid, hle, hne⟩ := h.2 h2
      rw [grmd_eq hI hm hid]
      have hd : decide (rm > rec.lastRemoteModifiedAt) = false := decide_eq_false (not_lt.mpr hle)
      simp [pyFalsyNat, hne, hd]
    · rw [if_neg h2]

theorem aligned_synced {db : Ledger} (hP : dbPathsNodup db) (hI : dbIdsNodup db) :
    ∀ (rl : RemoteListing) (pending : List (String × PendVal)),
      AlignedPend db rl pending → syncedPendB db rl pending = true := by
  intro rl
  induction rl with
  | rnil =>
    intro pending h
    simp only [AlignedPend] at h
    simp [syncedPendB, h]
  | rfolder rid rname rm c rest ihc ih =>
    intro pending h
    simp only [AlignedPend] at h
    obtain ⟨⟨n, p, m, cc, hfind, hal⟩, hrest⟩ := h
    simp only [syncedPendB, hfind]
    rw [ihc _ hal, ih _ hrest]
    rfl
  | rfile rid rname rm rest ih =>
    intro pending h
    simp only [AlignedPend] at h
    obtain ⟨⟨n, lpath, lm, hfind, hfa⟩, hrest⟩ := h
    simp only [syncedPendB, hfind]
    rw [fileAligned_syncedB hP hI hfa, ih _ hrest]
    rfl

theorem synced_no_ops (now : Nat) :
    ∀ (rl : RemoteListing) (pending : List (String × PendVal)) (pid : Nat) (D : LocalPath)
      (db : Ledger) (supply : Nat), syncedPendB db rl pending = true →
      ∃ lout rout, syncRemote now rl pid pending D db supply = .ok ⟨[], [], db, supply, lout, rout⟩ := by
  intro rl
  induction rl with
  | rnil =>
    intro pending pid D db supply h
    simp only [syncedPendB, List.isEmpty_iff] at h
    subst h
    exact ⟨.lnil, .rnil, rfl⟩
  | rfolder rid rname rm c rest ihc ih =>
    intro pending pid D db supply h
    simp only [syncedPendB] at h
    rcases hfind : dictFind pending rname with _ | v
    · rw [hfind] at h; cases h
    rcases v with ⟨n, p, m⟩ | ⟨n, p, m, cc⟩
    · rw [hfind] at h; cases h
    · rw [hfind] at h
      rw [Bool.and_eq_true] at h
      obtain ⟨lc, rc, hc⟩ := ihc (buildLocalDict cc) rid (D ++ [rname]) db supply h.1
      obtain ⟨lr, rr, hr⟩ := ih (dictErase pending rname) pid D db supply h.2
      refine ⟨.ldir rname p m lc lr, .rfolder rid rname rm rc rr, ?_⟩
      simp only [syncRemote, hfind, hc, hr]
      rfl
  | rfile rid rname rm rest ih =>
    intro pending pid D db supply h
    simp only [syncedPendB] at h
    rcases hfind : dictFind pending rname with _ | v
    · rw [hfind] at h; cases h
    rcases v with ⟨n, lpath, lm⟩ | ⟨n, p, m, cc⟩
    · rw [hfind] at h
      rw [Bool.and_eq_true] at h
      obtain ⟨lr, rr, hr⟩ := ih (dictErase pending rname) pid D db supply h.2
      refine ⟨.lfile rname lpath lm lr, .rfile rid rname rm rr, ?_⟩
      simp only [syncRemote, hfind, processMatchedFile_noop now h.1, hr]
      rfl
    · rw [hfind] at h; cases h

/-! ### Toolkit: remote-listing lemmas -/

theorem remotePathEntries_head {D : LocalPath} {rl : RemoteListing} :
    ∀ pi ∈ remotePathEntries D rl, ∃ n s, pi.1 = D ++ n :: s ∧ n ∈ remoteNames rl := by
  induction rl generalizing D with
  | rnil => intro pi h; cases h
  | rfile i n m rest ih =>
    intro pi h
    rcases List.mem_cons.mp h with rfl | h
    · exact ⟨n, [], by simp, by simp [remoteNames]⟩
    · obtain ⟨n', s, hp, hn⟩ := ih pi h
      exact ⟨n', s, hp, by simp [remoteNames, hn]⟩
  | rfolder i n m c rest ihc ih =>
    intro pi h
    rcases List.mem_cons.mp h with rfl | h
    · exact ⟨n, [], by simp, by simp [remoteNames]⟩
    rcases List.mem_append.mp h with h | h
    · obtain ⟨n', s, hp, _⟩ := ihc pi h
      refine ⟨n, n' :: s, ?_, by simp [remoteNames]⟩
      rw [hp]
      simp
    · obtain ⟨n', s, hp, hn⟩ := ih pi h
      exact ⟨n', s, hp, by simp [remoteNames, hn]⟩

theorem mem_ids_entry {D : LocalPath} {rl : RemoteListing} :
    ∀ i ∈ allRemoteIds rl, ∃ p, (p, i) ∈ remotePathEntries D rl := by
  induction rl generalizing D with
  | rnil => intro i h; cases h
  | rfile j n m rest ih =>
    intro i h
    rcases List.mem_cons.mp h with rfl | h
    · exact ⟨D ++ [n], by simp [remotePathEntries]⟩
    · obtain ⟨p, hp⟩ := ih (D := D) i h
      exact ⟨p, by simp [remotePathEntries, hp]⟩
  | rfolder j n m c rest ihc ih =>
    intro i h
    rcases List.mem_cons.mp h with rfl | h
    · exact ⟨D ++ [n], by simp [remotePathEntries]⟩
    rcases List.mem_append.mp h with h | h
    · obtain ⟨p, hp⟩ := ihc (D := D ++ [n]) i h
      exact ⟨p, by simp [remotePathEntries, hp]⟩
    · obtain ⟨p, hp⟩ := ih (D := D) i h
      exact ⟨p, by simp [remotePathEntries, hp]⟩

theorem entries_folder_children {D : LocalPath} {i : Nat} {n : String} {m : Nat}
    {c rest : RemoteListing} {pi : LocalPath × Nat}
    (h : pi ∈ remotePathEntries (D ++ [n]) c) :
    pi ∈ remotePathEntries D (.rfolder i n m c rest) := by
  simp [remotePathEntries, h]

theorem entries_folder_rest {D : LocalPath} {i : Nat} {n : String} {m : Nat}
    {c rest : RemoteListing} {pi : LocalPath × Nat}
    (h : pi ∈ remotePathEntries D rest) :
    pi ∈ remotePathEntries D (.rfolder i n m c rest) := by
  simp [remotePathEntries, h]

theorem entries_file_rest {D : LocalPath} {i : Nat} {n : String} {m : Nat}
    {rest : RemoteListing} {pi : LocalPath × Nat}
    (h : pi ∈ remotePathEntries D rest) :
    pi ∈ remotePathEntries D (.rfile i n m rest) := by
  simp [remotePathEntries, h]

theorem entries_folder_self {D : LocalPath} {i : Nat} {n : String} {m : Nat}
    {c rest : RemoteListing} :
    (D ++ [n], i) ∈ remotePathEntries D (.rfolder i n m c rest) := by
  simp [remotePathEntries]

theorem entries_file_self {D : LocalPath} {i : Nat} {n : String} {m : Nat}
    {rest : RemoteListing} :
    (D ++ [n], i) ∈ remotePathEntries D (.rfile i n m rest) := by
  simp [remotePathEntries]

theorem nodup_ids_folder {i : Nat} {n : String} {m : Nat} {c rest : RemoteListing}
    (h : (allRemoteIds (.rfolder i n m c rest)).Nodup) :
    (allRemoteIds c).Nodup ∧ (allRemoteIds rest).Nodup ∧
    (∀ j ∈ allRemoteIds c, j ∉ allRemoteIds rest) ∧
    i ∉ allRemoteIds c ∧ i ∉ allRemoteIds rest := by
  simp only [allRemoteIds, List.nodup_cons, List.nodup_append, List.mem_append] at h
  refine ⟨h.2.1, h.2.2.1, ?_, fun hc => h.1 (Or.inl hc), fun hc => h.1 (Or.inr hc)⟩
  intro j hj hr
  exact h.2.2.2 hj hr

theorem nodup_ids_file {i : Nat} {n : String} {m : Nat} {rest : RemoteListing}
    (h : (allRemoteIds (.rfile i n m rest)).Nodup) :
    (allRemoteIds rest).Nodup ∧ i ∉ allRemoteIds rest := by
  simp only [allRemoteIds, List.nodup_cons] at h
  exact ⟨h.2, h.1⟩

theorem namesOK_folder {i : Nat} {n : String} {m : Nat} {c rest : RemoteListing}
    (h : remoteNamesOK (.rfolder i n m c rest) = true) :
    n ∉ remoteNames rest ∧ remoteNamesOK c = true ∧ remoteNamesOK rest = true := by
  simp only [remoteNamesOK, Bool.and_eq_true, Bool.not_eq_true'] at h
  exact ⟨by simpa using h.1.1, h.1.2, h.2⟩

theorem namesOK_file {i : Nat} {n : String} {m : Nat} {rest : RemoteListing}
    (h : remoteNamesOK (.rfile i n m rest) = true) :
    n ∉ remoteNames rest ∧ remoteNamesOK rest = true := by
  simp only [remoteNamesOK, Bool.and_eq_true, Bool.not_eq_true'] at h
  exact ⟨by simpa using h.1, h.2⟩

/-- A ledger row of a consistent state whose remote id occurs in the
remote listing sits at a path whose first new segment is a top-level
remote name. -/
theorem consistent_rec_head {D : LocalPath} {rl : RemoteListing} {db : Ledger}
    (hcons : ConsistentWith D rl db) {rec : LedgerRecord} (hrec : rec ∈ db)
    (hid : rec.remoteId ∈ allRemoteIds rl) :
    ∃ n s, rec.localPath = D ++ n :: s ∧ n ∈ remoteNames rl := by
  obtain ⟨p, hp⟩ := mem_ids_entry (D := D) rec.remoteId hid
  have hpath := hcons rec hrec (p, rec.remoteId) hp rfl
  obtain ⟨n, s, hph, hn⟩ := remotePathEntries_head (p, rec.remoteId) hp
  exact ⟨n, s, by rw [hpath]; exact hph, hn⟩

/-! ### Toolkit: branch-condition extraction -/

theorem glmd_extract {db : Ledger} {p : LocalPath} {v : Nat}
    (h : get_local_modification_date db p = some v) :
    ∃ rec ∈ db, rec.localPath = p ∧ rec.lastLocalModifiedAt = v := by
  unfold get_local_modification_date at h
  rcases hfind : db.find? (fun r => r.localPath == p) with _ | rec
  · rw [hfind] at h; cases h
  · rw [hfind] at h
    refine ⟨rec, List.mem_of_find?_eq_some hfind, by simpa using List.find?_some hfind, ?_⟩
    simpa using h

theorem grmd_extract {db : Ledger} {i : Nat} {v : Nat}
    (h : get_remote_modification_date db i = some v) :
    ∃ rec ∈ db, rec.remoteId = i ∧ rec.lastRemoteModifiedAt = v := by
  unfold get_remote_modification_date at h
  rcases hfind : db.find? (fun r => r.remoteId == i) with _ | rec
  · rw [hfind] at h; cases h
  · rw [hfind] at h
    refine ⟨rec, List.mem_of_find?_eq_some hfind, by simpa using List.find?_some hfind, ?_⟩
    simpa using h

theorem blocked_extract {o : Option Nat} {a : Nat}
    (h : ¬ (pyFalsyNat o = true ∨ a > o.getD 0)) :
    ∃ v, o = some v ∧ v ≠ 0 ∧ a ≤ v := by
  push_neg at h
  rcases o with _ | v
  · exact absurd rfl h.1
  · refine ⟨v, rfl, ?_, by simpa using h.2⟩
    intro hv
    exact h.1 (by simp [pyFalsyNat, hv])

theorem grfi_false_no_rec {db : Ledger} {p : LocalPath}
    (h : pyTruthyId (get_remote_file_id db p) = false) :
    ∀ rec ∈ db, rec.localPath ≠ p := by
  intro rec hm hp
  have hsome : (db.find? (fun r => r.localPath == p)).isSome := by
    rw [List.find?_isSome]
    exact ⟨rec, hm, by simp [hp]⟩
  rcases hfind : db.find? (fun r => r.localPath == p) with _ | found
  · rw [hfind] at hsome; cases hsome
  · unfold get_remote_file_id at h
    rw [hfind] at h
    simp [pyTruthyId] at h

theorem grfi_true_rec {db : Ledger} {p : LocalPath}
    (h : pyTruthyId (get_remote_file_id db p) = true) :
    ∃ rec ∈ db, rec.localPath = p := by
  unfold get_remote_file_id at h
  rcases hfind : db.find? (fun r => r.localPath == p) with _ | found
  · rw [hfind] at h; simp [pyTruthyId] at h
  · exact ⟨found, List.mem_of_find?_eq_some hfind, by simpa using List.find?_some hfind⟩

theorem glfp_true_rec {db : Ledger} {i : Nat}
    (h : pyTruthyPath (get_local_file_path db i) = true) :
    ∃ rec ∈ db, rec.remoteId = i ∧ rec.localPath ≠ [] := by
  unfold get_local_file_path at h
  rcases hfind : db.find? (fun r => r.remoteId == i) with _ | found
  · rw [hfind] at h; simp [pyTruthyPath] at h
  · rw [hfind] at h
    refine ⟨found, List.mem_of_find?_eq_some hfind, by simpa using List.find?_some hfind, ?_⟩
    intro hcontra
    simp [pyTruthyPath, hcontra] at h

/-! ### Toolkit: alignment transport -/

theorem alignedPend_mono :
    ∀ (rl : RemoteListing) (pending : List (String × PendVal)) (D : LocalPath)
      (db db' : Ledger), AlignedPend db rl pending → PendingOK D pending →
      (∀ rec ∈ db, StrictUnder D rec.localPath → rec ∈ db') →
      AlignedPend db' rl pending := by
  intro rl
  induction rl with
  | rnil =>
    intro pending D db db' h _ _
    simpa [AlignedPend] using h
  | rfolder rid rname rm c rest ihc ih =>
    intro pending D db db' h hpend hkeep
    simp only [AlignedPend] at h ⊢
    obtain ⟨⟨n, p, m, cc, hfind, hal⟩, hrest⟩ := h
    obtain ⟨hn, hp, hcpok, hcnok⟩ := pendingOK_pstripped hpend hfind
    refine ⟨⟨n, p, m, cc, hfind, ?_⟩, ?_⟩
    · exact ihc (buildLocalDict cc) (D ++ [rname]) db db' hal (pendingOK_build hcpok hcnok)
        (fun rec hm hu => hkeep rec hm (strictUnder_of_deeper hu))
    · exact ih (dictErase pending rname) D db db' hrest (pendingOK_erase hpend) hkeep
  | rfile rid rname rm rest ih =>
    intro pending D db db' h hpend hkeep
    simp only [AlignedPend] at h ⊢
    obtain ⟨⟨n, lpath, lm, hfind, hfa⟩, hrest⟩ := h
    obtain ⟨hn, hp⟩ := pendingOK_pfile hpend hfind
    refine ⟨⟨n, lpath, lm, hfind, ?_, ?_⟩, ?_⟩
    · intro hgt
      obtain ⟨rec, hm, hrp, hle, hne⟩ := hfa.1 hgt
      refine ⟨rec, hkeep rec hm ?_, hrp, hle, hne⟩
      rw [hrp, hp]
      exact strictUnder_cons D rname []
    · intro hgt
      obtain ⟨rec, hm, hrp, hid, hle, hne⟩ := hfa.2 hgt
      refine ⟨rec, hkeep rec hm ?_, hrp, hid, hle, hne⟩
      rw [hrp, hp]
      exact strictUnder_cons D rname []
    · exact ih (dictErase pending rname) D db db' hrest (pendingOK_erase hpend) hkeep

/-! ### Toolkit: the copy bundle -/

theorem pendingOK_cons_pfile {D : LocalPath} {k n' : String} {p : LocalPath} {m : Nat}
    {rest : List (String × PendVal)} (h : PendingOK D ((k, .pfile n' p m) :: rest)) :
    n' = k ∧ p = D ++ [k] ∧ PendingOK D rest ∧ ∀ kv ∈ rest, kv.1 ≠ k := by
  have hval := h.2 _ (List.mem_cons_self _ _)
  simp only at hval
  have hkeys := h.1
  simp only [dictKeys, List.map_cons, List.nodup_cons] at hkeys
  refine ⟨hval.1.symm, hval.1 ▸ hval.2, ⟨hkeys.2, fun kv hm => h.2 kv (List.mem_cons_of_mem _ hm)⟩, ?_⟩
  intro kv hm hk
  exact hkeys.1 (hk ▸ List.mem_map_of_mem _ hm)

theorem pendingOK_cons_tail {D : LocalPath} {kv : String × PendVal}
    {rest : List (String × PendVal)} (h : PendingOK D (kv :: rest)) :
    PendingOK D rest := by
  have hkeys := h.1
  simp only [dictKeys, List.map_cons, List.nodup_cons] at hkeys
  exact ⟨hkeys.2, fun kv' hm => h.2 kv' (List.mem_cons_of_mem _ hm)⟩

theorem dictKeys_cons_self {k : String} {v : PendVal} {rest : List (String × PendVal)} :
    k ∈ dictKeys ((k, v) :: rest) := by
  simp [dictKeys]

theorem dictKeys_cons_sub {k' : String} {v : PendVal} {rest : List (String × PendVal)}
    {n : String} (h : n ∈ dictKeys rest) : n ∈ dictKeys ((k', v) :: rest) := by
  simp only [dictKeys, List.map_cons, List.mem_cons]
  exact Or.inr h

theorem dictKeys_mem_val {pending : List (String × PendVal)} {n : String}
    (h : n ∈ dictKeys pending) : ∃ kv ∈ pending, kv.1 = n := by
  simp only [dictKeys, List.mem_map] at h
  exact h

theorem copy_estab (now : Nat) :
    ∀ (pending : List (String × PendVal)) (pid : Nat) (D : LocalPath) (db : Ledger)
      (supply : Nat) (cres : CopyResult),
      PendingOK D pending → dbPathsNodup db → dbIdsNodup db →
      (∀ rec ∈ db, rec.remoteId < supply) →
      copy_local_to_remote now pending pid db supply = .ok cres →
      CopyEstab pending D db supply cres := by
  intro pending
  induction pending with
  | nil =>
    intro pid D db supply cres hpend hP hI hF h
    simp only [copy_local_to_remote, Except.ok.injEq] at h
    subst h
    refine ⟨?_, ?_, ?_, ?_, ?_, ?_, ?_, ?_, ?_, ?_, ?_, ?_, ?_, ?_⟩
    · simp [AlignedPend, buildLocalDict, buildLocalDictFrom]
    · intro op hop; cases hop
    · intro op hop i hi; cases hop
    · exact le_refl _
    · intro rec hm _ _; exact hm
    · exact hP
    · exact hI
    · exact hF
    · intro rec hm; exact Or.inl hm
    · rfl
    · rfl
    · intro n hn; cases hn
    · intro n hn; cases hn
    · intro i hi; cases hi
  | cons kv rest ih =>
    obtain ⟨k, v⟩ := kv
    intro pid D db supply cres hpend hP hI hF h
    rcases v with ⟨n', p, m⟩ | ⟨n', p, m, c⟩
    · -- a leftover file
      obtain ⟨hn', hp, hpendrest, hknot⟩ := pendingOK_cons_pfile hpend
      subst hn'
      rcases htr : pyTruthyId (get_remote_file_id db p) with _ | _
      · -- no record: create the file at the remote with a fresh id
        simp only [copy_local_to_remote, copyOneFile, htr, Bool.false_eq_true, if_false] at h
        rcases hrest : copy_local_to_remote now rest pid
            (insert_record db p supply m now) (supply + 1) with e | rr
        · rw [hrest] at h; cases h
        rw [hrest] at h
        simp only [Except.ok.injEq] at h
        subst h
        have hF1 : ∀ rec ∈ insert_record db p supply m now, rec.remoteId < supply + 1 := by
          intro rec hm
          rcases mem_insert_record.mp hm with ⟨hmm, -, -⟩ | rfl
          · exact Nat.lt_succ_of_lt (hF rec hmm)
          · exact Nat.lt_succ_self _
        have hcr := ih pid D _ _ _ hpendrest (dbPathsNodup_insert hP) (dbIdsNodup_insert hI)
          hF1 hrest
        have hpres0 : ∀ op ∈ rr.dbOps, dbOpPath op ≠ p := by
          intro op hop hcontra
          obtain ⟨n2, s, hpath, hn2⟩ := hcr.opsPath op hop
          rw [hpath, hp] at hcontra
          obtain ⟨kv2, hkv2, hkv2e⟩ := dictKeys_mem_val hn2
          exact hknot kv2 hkv2 (hkv2e.trans (head_eq_of_eq hcontra).1)
        have hids0 : ∀ op ∈ rr.dbOps, dbOpPath op ≠ p ∨ True := fun op hop => Or.inl (hpres0 op hop)
        have hrec0 : (⟨p, supply, m, now⟩ : LedgerRecord) ∈ rr.ledger := by
          refine hcr.pres _ (mem_insert_record.mpr (Or.inr rfl)) (fun op hop => hpres0 op hop) ?_
          intro op hop hcontra
          obtain ⟨hge, -⟩ := hcr.opsInsId op hop supply hcontra
          omega
        have hkout : n' ∉ localNames rr.localOut := by
          intro hmem
          obtain ⟨kv2, hkv2, hkv2e⟩ := dictKeys_mem_val (hcr.lNamesSub n' hmem)
          exact hknot kv2 hkv2 hkv2e
        have hlnok : localNamesOK (.lfile n' p m rr.localOut) = true := by
          simp only [localNamesOK, Bool.and_eq_true, Bool.not_eq_true']
          exact ⟨by simpa using hkout, hcr.lNamesOK⟩
        refine ⟨?_, ?_, ?_, ?_, ?_, ?_, ?_, ?_, ?_, ?_, ?_, ?_, ?_, ?_⟩
        · -- aligned
          show AlignedPend rr.ledger (.rfile supply n' now rr.remoteOut)
            (buildLocalDict (.lfile n' p m rr.localOut))
          rw [buildLocalDict_eq hlnok]
          simp only [listingPairs, AlignedPend]
          constructor
          · refine ⟨n', p, m, dictFind_cons_self, ?_, ?_⟩
            · intro hgt
              exact ⟨⟨p, supply, m, now⟩, hrec0, rfl, le_refl _, by show m ≠ 0; omega⟩
            · intro hgt
              exact ⟨⟨p, supply, m, now⟩, hrec0, rfl, rfl, le_refl _, by show now ≠ 0; omega⟩
          · rw [dictErase_cons_self, ← buildLocalDict_eq hcr.lNamesOK]
            · exact hcr.aligned
            · intro kv2 hkv2 hcontra
              apply hkout
              rw [← dictKeys_listingPairs, ← hcontra]
              exact List.mem_map_of_mem _ hkv2
        · -- opsPath
          intro op hop
          replace hop : op ∈ DbOp.insert p supply m now :: rr.dbOps := hop
          rcases List.mem_cons.mp hop with rfl | hop
          · exact ⟨n', [], by simp [dbOpPath, hp], dictKeys_cons_self⟩
          · obtain ⟨n2, s, hpath, hn2⟩ := hcr.opsPath op hop
            exact ⟨n2, s, hpath, dictKeys_cons_sub hn2⟩
        · -- opsInsId
          intro op hop i hi
          replace hop : op ∈ DbOp.insert p supply m now :: rr.dbOps := hop
          rcases List.mem_cons.mp hop with rfl | hop
          · simp only [dbOpInsertId, Option.some.injEq] at hi
            subst hi
            have := hcr.supplyLe
            constructor
            · exact le_refl _
            · show supply < rr.supply
              omega
          · obtain ⟨h1, h2⟩ := hcr.opsInsId op hop i hi
            refine ⟨by omega, ?_⟩
            show i < rr.supply
            omega
        · -- supplyLe
          show supply ≤ rr.supply
          have := hcr.supplyLe
          omega
        · -- pres
          intro rec hm havoidP havoidI
          replace havoidP : ∀ op ∈ DbOp.insert p supply m now :: rr.dbOps,
            dbOpPath op ≠ rec.localPath := havoidP
          replace havoidI : ∀ op ∈ DbOp.insert p supply m now :: rr.dbOps,
            dbOpInsertId op ≠ some rec.remoteId := havoidI
          show rec ∈ rr.ledger
          refine hcr.pres rec ?_ ?_ ?_
          · refine insert_record_keeps hm ?_ ?_
            · exact fun hc => havoidP _ (List.mem_cons_self _ _) (by simp [dbOpPath, hc])
            · exact fun hc => havoidI _ (List.mem_cons_self _ _) (by simp [dbOpInsertId, hc])
          · exact fun op hop => havoidP op (List.mem_cons_of_mem _ hop)
          · exact fun op hop => havoidI op (List.mem_cons_of_mem _ hop)
        · exact hcr.nodupP
        · exact hcr.nodupI
        · exact hcr.freshOut
        · -- newRec
          intro rec hm
          replace hm : rec ∈ rr.ledger := hm
          rcases hcr.newRec rec hm with hmm | ⟨ll, lr, hins⟩
          · rcases mem_insert_record.mp hmm with ⟨hdb, -, -⟩ | rfl
            · exact Or.inl hdb
            · refine Or.inr ⟨m, now, ?_⟩
              show DbOp.insert p supply m now ∈ DbOp.insert p supply m now :: rr.dbOps
              exact List.mem_cons_self _ _
          · refine Or.inr ⟨ll, lr, ?_⟩
            show DbOp.insert rec.localPath rec.remoteId ll lr ∈
              DbOp.insert p supply m now :: rr.dbOps
            exact List.mem_cons_of_mem _ hins
        · -- lPathsOK
          show localPathsOK D (.lfile n' p m rr.localOut) = true
          simp only [localPathsOK, Bool.and_eq_true, beq_iff_eq]
          exact ⟨hp, hcr.lPathsOK⟩
        · exact hlnok
        · -- lNamesSub
          intro n hn
          replace hn : n ∈ localNames (.lfile n' p m rr.localOut) := hn
          simp only [localNames, List.mem_cons] at hn
          rcases hn with rfl | hn
          · exact dictKeys_cons_self
          · exact dictKeys_cons_sub (hcr.lNamesSub n hn)
        · -- rNamesSub
          intro n hn
          replace hn : n ∈ remoteNames (.rfile supply n' now rr.remoteOut) := hn
          simp only [remoteNames, List.mem_cons] at hn
          rcases hn with rfl | hn
          · exact dictKeys_cons_self
          · exact dictKeys_cons_sub (hcr.rNamesSub n hn)
        · -- ridsOut
          intro i hi
          replace hi : i ∈ allRemoteIds (.rfile supply n' now rr.remoteOut) := hi
          simp only [allRemoteIds, List.mem_cons] at hi
          rcases hi with rfl | hi
          · have := hcr.supplyLe
            refine ⟨le_refl _, ?_⟩
            show i < rr.supply
            omega
          · obtain ⟨h1, h2⟩ := hcr.ridsOut i hi
            refine ⟨by omega, ?_⟩
            show i < rr.supply
            omega
      · -- a live record: the remote file was deleted, delete locally
        simp only [copy_local_to_remote, copyOneFile, htr, if_true] at h
        rcases hrest : copy_local_to_remote now rest pid (delete_record db p) supply with e | rr
        · rw [hrest] at h; cases h
        rw [hrest] at h
        simp only [Except.ok.injEq] at h
        subst h
        have hF1 : ∀ rec ∈ delete_record db p, rec.remoteId < supply :=
          fun rec hm => hF rec (mem_delete_record.mp hm).1
        have hcr := ih pid D _ _ _ hpendrest (dbPathsNodup_delete hP) (dbIdsNodup_delete hI)
          hF1 hrest
        refine ⟨?_, ?_, ?_, ?_, ?_, ?_, ?_, ?_, ?_, ?_, ?_, ?_, ?_, ?_⟩
        · exact hcr.aligned
        · intro op hop
          replace hop : op ∈ DbOp.delete p :: rr.dbOps := hop
          rcases List.mem_cons.mp hop with rfl | hop
          · exact ⟨n', [], by simp [dbOpPath, hp], dictKeys_cons_self⟩
          · obtain ⟨n2, s, hpath, hn2⟩ := hcr.opsPath op hop
            exact ⟨n2, s, hpath, dictKeys_cons_sub hn2⟩
        · intro op hop i hi
          replace hop : op ∈ DbOp.delete p :: rr.dbOps := hop
          rcases List.mem_cons.mp hop with rfl | hop
          · cases hi
          · exact hcr.opsInsId op hop i hi
        · exact hcr.supplyLe
        · intro rec hm havoidP havoidI
          replace havoidP : ∀ op ∈ DbOp.delete p :: rr.dbOps,
            dbOpPath op ≠ rec.localPath := havoidP
          replace havoidI : ∀ op ∈ DbOp.delete p :: rr.dbOps,
            dbOpInsertId op ≠ some rec.remoteId := havoidI
          show rec ∈ rr.ledger
          refine hcr.pres rec ?_ ?_ ?_
          · exact delete_record_keeps hm
              (fun hc => havoidP _ (List.mem_cons_self _ _) (by simp [dbOpPath, hc]))
          · exact fun op hop => havoidP op (List.mem_cons_of_mem _ hop)
          · exact fun op hop => havoidI op (List.mem_cons_of_mem _ hop)
        · exact hcr.nodupP
        · exact hcr.nodupI
        · exact hcr.freshOut
        · intro rec hm
          replace hm : rec ∈ rr.ledger := hm
          rcases hcr.newRec rec hm with hmm | ⟨ll, lr, hins⟩
          · exact Or.inl (mem_delete_record.mp hmm).1
          · refine Or.inr ⟨ll, lr, ?_⟩
            show DbOp.insert rec.localPath rec.remoteId ll lr ∈ DbOp.delete p :: rr.dbOps
            exact List.mem_cons_of_mem _ hins
        · exact hcr.lPathsOK
        · exact hcr.lNamesOK
        · intro n hn
          replace hn : n ∈ localNames rr.localOut := hn
          exact dictKeys_cons_sub (hcr.lNamesSub n hn)
        · intro n hn
          replace hn : n ∈ remoteNames rr.remoteOut := hn
          exact dictKeys_cons_sub (hcr.rNamesSub n hn)
        · intro i hi
          replace hi : i ∈ allRemoteIds rr.remoteOut := hi
          exact hcr.ridsOut i hi
    · -- a leftover stripped directory raises AttributeError
      simp only [copy_local_to_remote] at h
      cases h

/-! ### Toolkit: helpers for the main bundle -/

theorem entry_id_mem {D : LocalPath} {rl : RemoteListing} :
    ∀ pi ∈ remotePathEntries D rl, pi.2 ∈ allRemoteIds rl := by
  induction rl generalizing D with
  | rnil => intro pi h; cases h
  | rfile i n m rest ih =>
    intro pi h
    rcases List.mem_cons.mp h with rfl | h
    · simp [allRemoteIds]
    · simp only [allRemoteIds, List.mem_cons]
      exact Or.inr (ih (D := D) pi h)
  | rfolder i n m c rest ihc ih =>
    intro pi h
    rcases List.mem_cons.mp h with rfl | h
    · simp [allRemoteIds]
    simp only [allRemoteIds, List.mem_cons, List.mem_append]
    rcases List.mem_append.mp h with h | h
    · exact Or.inr (Or.inl (ihc (D := D ++ [n]) pi h))
    · exact Or.inr (Or.inr (ih (D := D) pi h))

theorem dictKeys_of_find_some {d : List (String × PendVal)} {k : String} {v : PendVal}
    (h : dictFind d k = some v) : k ∈ dictKeys d := by
  have := dictFind_some_mem h
  simp only [dictKeys, List.mem_map]
  exact ⟨(k, v), this, rfl⟩

/-- A consistent ledger row sitting at a path whose first new segment is
not a name of the sub-listing cannot carry a remote id of that
sub-listing. -/
theorem consistent_not_id_of_path_head {D : LocalPath} {rest whole : RemoteListing}
    {db : Ledger} (hcons : ConsistentWith D whole db)
    (hsub : ∀ pi ∈ remotePathEntries D rest, pi ∈ remotePathEntries D whole)
    {rec : LedgerRecord} (hrec : rec ∈ db) {rname : String}
    (hhead : ∃ s, rec.localPath = D ++ rname :: s)
    (hnotin : rname ∉ remoteNames rest) : rec.remoteId ∉ allRemoteIds rest := by
  intro hidmem
  obtain ⟨q, hq⟩ := mem_ids_entry (D := D) _ hidmem
  have hpath := hcons rec hrec (q, rec.remoteId) (hsub _ hq) rfl
  obtain ⟨n3, s3, hq3, hn3⟩ := remotePathEntries_head (q, rec.remoteId) hq
  obtain ⟨s, hs⟩ := hhead
  rw [hs] at hpath
  rw [hq3] at hpath
  exact hnotin ((head_eq_of_eq hpath).1 ▸ hn3)

/-- The five possible outcomes of the matched-file comparison. -/
theorem processMatchedFile_spec (now : Nat) (db : Ledger) (lpath : LocalPath)
    (lm rid rm : Nat) :
    (lm > rm ∧ processMatchedFile now db lpath lm rid rm =
      ⟨[.overwriteRemoteFileWithLocal rid lpath], [.insert lpath rid lm now],
        insert_record db lpath rid lm now, lm, now⟩) ∨
    (rm > lm ∧ processMatchedFile now db lpath lm rid rm =
      ⟨[.copyRemoteFileToLocal lpath rid], [.insert lpath rid now rm],
        insert_record db lpath rid now rm, now, rm⟩) ∨
    (lm > rm ∧ (∃ v, get_local_modification_date db lpath = some v ∧ v ≠ 0 ∧ lm ≤ v) ∧
      processMatchedFile now db lpath lm rid rm = ⟨[], [], db, lm, rm⟩) ∨
    (rm > lm ∧ (∃ v, get_remote_modification_date db rid = some v ∧ v ≠ 0 ∧ rm ≤ v) ∧
      processMatchedFile now db lpath lm rid rm = ⟨[], [], db, lm, rm⟩) ∨
    (lm = rm ∧ processMatchedFile now db lpath lm rid rm = ⟨[], [], db, lm, rm⟩) := by
  unfold processMatchedFile
  by_cases h1 : lm > rm
  · rw [if_pos h1]
    by_cases h2 : pyFalsyNat (get_local_modification_date db lpath) = true ∨
        lm > (get_local_modification_date db lpath).getD 0
    · rw [if_pos h2]
      exact Or.inl ⟨h1, rfl⟩
    · rw [if_neg h2]
      exact Or.inr (Or.inr (Or.inl ⟨h1, blocked_extract h2, rfl⟩))
  · rw [if_neg h1]
    by_cases h3 : rm > lm
    · rw [if_pos h3]
      by_cases h2 : pyFalsyNat (get_remote_modification_date db rid) = true ∨
          rm > (get_remote_modification_date db rid).getD 0
      · rw [if_pos h2]
        exact Or.inr (Or.inl ⟨h3, rfl⟩)
      · rw [if_neg h2]
        exact Or.inr (Or.inr (Or.inr (Or.inl ⟨h3, blocked_extract h2, rfl⟩)))
    · rw [if_neg h3]
      exact Or.inr (Or.inr (Or.inr (Or.inr ⟨by omega, rfl⟩)))


/-! ### Toolkit: record transport through a later call -/

theorem rec_survives_estab {rest : RemoteListing} {pending2 : List (String × PendVal)}
    {D : LocalPath} {db₁ : Ledger} {supply₁ : Nat} {r2 : SyncResult}
    (he : Estab rest pending2 D db₁ supply₁ r2)
    {rec : LedgerRecord} (hrec : rec ∈ db₁)
    {rname : String} (hpath : ∃ s, rec.localPath = D ++ rname :: s)
    (hkeys : rname ∉ dictKeys pending2) (hnames : rname ∉ remoteNames rest)
    (hid : rec.remoteId ∉ allRemoteIds rest) (hfresh : rec.remoteId < supply₁) :
    rec ∈ r2.ledger := by
  refine he.pres rec hrec ?_ ?_
  · intro op hop hcontra
    obtain ⟨n2, s2, hp2, hn2⟩ := he.opsPath op hop
    obtain ⟨s, hs⟩ := hpath
    rw [hp2, hs] at hcontra
    have hn2e := (head_eq_of_eq hcontra).1
    subst hn2e
    rcases hn2 with h | h
    · exact hkeys h
    · exact hnames h
  · intro op hop hcontra
    rcases he.opsInsId op hop rec.remoteId hcontra with h | ⟨h1, h2⟩
    · exact hid h
    · omega

theorem child_recs_ok {D : LocalPath} {rname : String} {c rest : RemoteListing}
    {pendC : List (String × PendVal)} {db₁ : Ledger} {supply : Nat} {rc : SyncResult}
    (hce : Estab c pendC (D ++ [rname]) db₁ supply rc)
    (hstart : ∀ rec ∈ db₁, StrictUnder (D ++ [rname]) rec.localPath →
      rec.remoteId ∉ allRemoteIds rest)
    (hF₁ : ∀ rec ∈ db₁, rec.remoteId < supply)
    (hdisj : ∀ j ∈ allRemoteIds c, j ∉ allRemoteIds rest)
    (hcids : ∀ i ∈ allRemoteIds c, i < supply)
    (hrids : ∀ i ∈ allRemoteIds rest, i < supply) :
    ∀ rec ∈ rc.ledger, StrictUnder (D ++ [rname]) rec.localPath →
      rec.remoteId ∉ allRemoteIds rest ∧ rec.remoteId < rc.supply := by
  intro rec hm hu
  rcases hce.newRec rec hm with hold | ⟨ll, lr, hins⟩
  · exact ⟨hstart rec hold hu, lt_of_lt_of_le (hF₁ rec hold) hce.supplyLe⟩
  · rcases hce.opsInsId _ hins rec.remoteId rfl with hc | ⟨h1, h2⟩
    · exact ⟨hdisj _ hc, lt_of_lt_of_le (hcids _ hc) hce.supplyLe⟩
    · refine ⟨?_, h2⟩
      intro hmem
      exact absurd (hrids _ hmem) (by omega)


theorem syncRemote_estab (now : Nat) :
    ∀ (rl : RemoteListing) (pending : List (String × PendVal)) (pid : Nat) (D : LocalPath)
      (db : Ledger) (supply : Nat) (res : SyncResult),
      remoteNamesOK rl = true →
      (allRemoteIds rl).Nodup →
      PendingOK D pending →
      dbPathsNodup db → dbIdsNodup db →
      ConsistentWith D rl db →
      (∀ i ∈ allRemoteIds rl, i < supply) →
      (∀ rec ∈ db, rec.remoteId < supply) →
      syncRemote now rl pid pending D db supply = .ok res →
      Estab rl pending D db supply res := by
  intro rl
  induction rl with
  | rnil =>
    intro pending pid D db supply res hnames hids hpend hP hI hcons hRF hF h
    simp only [syncRemote] at h
    rcases hc : copy_local_to_remote now pending pid db supply with e | cres
    · rw [hc] at h; cases h
    rw [hc] at h
    simp only [Except.ok.injEq] at h
    subst h
    have hce := copy_estab now pending pid D db supply cres hpend hP hI hF hc
    refine ⟨?_, ?_, ?_, ?_, ?_, ?_, ?_, ?_, ?_, ?_, ?_, ?_, ?_, ?_⟩
    · exact hce.aligned
    · intro op hop
      obtain ⟨n, s, hp2, hn⟩ := hce.opsPath op hop
      exact ⟨n, s, hp2, Or.inl hn⟩
    · intro op hop i hi
      exact Or.inr (hce.opsInsId op hop i hi)
    · exact hce.supplyLe
    · exact hce.pres
    · exact hce.nodupP
    · exact hce.nodupI
    · exact hce.freshOut
    · exact hce.newRec
    · exact hce.lPathsOK
    · exact hce.lNamesOK
    · intro n hn; exact Or.inl (hce.lNamesSub n hn)
    · intro n hn; exact Or.inl (hce.rNamesSub n hn)
    · intro i hi; exact Or.inr (hce.ridsOut i hi)
  | rfile rid rname rm rest ih =>
    intro pending pid D db supply res hnames hids hpend hP hI hcons hRF hF h
    obtain ⟨hnotin, hnamesR⟩ := namesOK_file hnames
    obtain ⟨hidsR, hridnot⟩ := nodup_ids_file hids
    have hconsR : ConsistentWith D rest db :=
      fun rec hm pi hpi hi => hcons rec hm pi (entries_file_rest hpi) hi
    have hRFR : ∀ i ∈ allRemoteIds rest, i < supply := by
      intro i hi
      exact hRF i (by simp [allRemoteIds, hi])
    have hridF : rid < supply := hRF rid (by simp [allRemoteIds])
    simp only [syncRemote] at h
    rcases hfind : dictFind pending rname with _ | v
    · -- no local counterpart
      have hkeys0 : rname ∉ dictKeys pending := notMem_dictKeys_of_find_none hfind
      rcases htr : pyTruthyPath (get_local_file_path db rid) with _ | _
      · -- no record either: pull the file to a new local file
        simp only [hfind, htr, Bool.false_eq_true, if_false] at h
        rcases hrest : syncRemote now rest pid pending D
            (insert_record db (D ++ [rname]) rid now rm) supply with e | r2
        · rw [hrest] at h; cases h
        rw [hrest] at h
        simp only [Except.ok.injEq] at h
        subst h
        have hcons1 : ConsistentWith D rest (insert_record db (D ++ [rname]) rid now rm) := by
          intro rec hm pi hpi hi
          rcases mem_insert_record.mp hm with ⟨hmm, -, -⟩ | rfl
          · exact hconsR rec hmm pi hpi hi
          · exfalso
            have h4 := entry_id_mem pi hpi
            rw [← hi] at h4
            exact hridnot h4
        have hF1 : ∀ rec ∈ insert_record db (D ++ [rname]) rid now rm,
            rec.remoteId < supply := by
          intro rec hm
          rcases mem_insert_record.mp hm with ⟨hmm, -, -⟩ | rfl
          · exact hF rec hmm
          · exact hridF
        have hre := ih pending pid D _ supply r2 hnamesR hidsR hpend
          (dbPathsNodup_insert hP) (dbIdsNodup_insert hI) hcons1 hRFR hF1 hrest
        have hrec0 : (⟨D ++ [rname], rid, now, rm⟩ : LedgerRecord) ∈ r2.ledger :=
          rec_survives_estab hre (mem_insert_record.mpr (Or.inr rfl)) ⟨[], rfl⟩
            hkeys0 hnotin hridnot hridF
        have hkout : rname ∉ localNames r2.localOut := by
          intro hmem
          rcases hre.lNamesSub rname hmem with hmem2 | hmem2
          · exact hkeys0 hmem2
          · exact hnotin hmem2
        have hlnok : localNamesOK (.lfile rname (D ++ [rname]) now r2.localOut) = true := by
          simp only [localNamesOK, Bool.and_eq_true, Bool.not_eq_true']
          exact ⟨by simpa using hkout, hre.lNamesOK⟩
        refine ⟨?_, ?_, ?_, ?_, ?_, ?_, ?_, ?_, ?_, ?_, ?_, ?_, ?_, ?_⟩
        · show AlignedPend r2.ledger (.rfile rid rname rm r2.remoteOut)
            (buildLocalDict (.lfile rname (D ++ [rname]) now r2.localOut))
          rw [buildLocalDict_eq hlnok]
          simp only [listingPairs, AlignedPend]
          constructor
          · refine ⟨rname, D ++ [rname], now, dictFind_cons_self, ?_, ?_⟩
            · intro hgt
              exact ⟨⟨D ++ [rname], rid, now, rm⟩, hrec0, rfl, le_refl _, by show now ≠ 0; omega⟩
            · intro hgt
              exact ⟨⟨D ++ [rname], rid, now, rm⟩, hrec0, rfl, rfl, le_refl _, by show rm ≠ 0; omega⟩
          · rw [dictErase_cons_self, ← buildLocalDict_eq hre.lNamesOK]
            · exact hre.aligned
            · intro kv2 hkv2 hcontra
              apply hkout
              rw [← dictKeys_listingPairs, ← hcontra]
              exact List.mem_map_of_mem _ hkv2
        · intro op hop
          replace hop : op ∈ DbOp.insert (D ++ [rname]) rid now rm :: r2.dbOps := hop
          rcases List.mem_cons.mp hop with rfl | hop
          · exact ⟨rname, [], rfl, Or.inr (by simp [remoteNames])⟩
          · obtain ⟨n2, s2, hp2, hn2⟩ := hre.opsPath op hop
            refine ⟨n2, s2, hp2, ?_⟩
            rcases hn2 with hn2 | hn2
            · exact Or.inl hn2
            · exact Or.inr (by simp [remoteNames, hn2])
        · intro op hop i hi
          replace hop : op ∈ DbOp.insert (D ++ [rname]) rid now rm :: r2.dbOps := hop
          rcases List.mem_cons.mp hop with rfl | hop
          · simp only [dbOpInsertId, Option.some.injEq] at hi
            subst hi
            exact Or.inl (by simp [allRemoteIds])
          · rcases hre.opsInsId op hop i hi with h2 | h2
            · exact Or.inl (by simp [allRemoteIds, h2])
            · exact Or.inr h2
        · exact hre.supplyLe
        · intro rec hm havoidP havoidI
          replace havoidP : ∀ op ∈ DbOp.insert (D ++ [rname]) rid now rm :: r2.dbOps,
            dbOpPath op ≠ rec.localPath := havoidP
          replace havoidI : ∀ op ∈ DbOp.insert (D ++ [rname]) rid now rm :: r2.dbOps,
            dbOpInsertId op ≠ some rec.remoteId := havoidI
          show rec ∈ r2.ledger
          refine hre.pres rec ?_
            (fun op hop => havoidP op (List.mem_cons_of_mem _ hop))
            (fun op hop => havoidI op (List.mem_cons_of_mem _ hop))
          refine insert_record_keeps hm ?_ ?_
          · exact fun hc => havoidP _ (List.mem_cons_self _ _) (by simp [dbOpPath, hc])
          · exact fun hc => havoidI _ (List.mem_cons_self _ _) (by simp [dbOpInsertId, hc])
        · exact hre.nodupP
        · exact hre.nodupI
        · exact hre.freshOut
        · intro rec hm
          replace hm : rec ∈ r2.ledger := hm
          rcases hre.newRec rec hm with hmm | ⟨ll, lr, hins⟩
          · rcases mem_insert_record.mp hmm with ⟨hdb, -, -⟩ | rfl
            · exact Or.inl hdb
            · refine Or.inr ⟨now, rm, ?_⟩
              show _ ∈ DbOp.insert (D ++ [rname]) rid now rm :: r2.dbOps
              exact List.mem_cons_self _ _
          · refine Or.inr ⟨ll, lr, ?_⟩
            show _ ∈ DbOp.insert (D ++ [rname]) rid now rm :: r2.dbOps
            exact List.mem_cons_of_mem _ hins
        · show localPathsOK D (.lfile rname (D ++ [rname]) now r2.localOut) = true
          simp only [localPathsOK, Bool.and_eq_true, beq_iff_eq]
          exact ⟨trivial, hre.lPathsOK⟩
        · exact hlnok
        · intro n hn
          replace hn : n ∈ localNames (.lfile rname (D ++ [rname]) now r2.localOut) := hn
          simp only [localNames, List.mem_cons] at hn
          rcases hn with rfl | hn
          · exact Or.inr (by simp [remoteNames])
          · rcases hre.lNamesSub n hn with h2 | h2
            · exact Or.inl h2
            · exact Or.inr (by simp [remoteNames, h2])
        · intro n hn
          replace hn : n ∈ remoteNames (.rfile rid rname rm r2.remoteOut) := hn
          simp only [remoteNames, List.mem_cons] at hn
          rcases hn with rfl | hn
          · exact Or.inr (by simp [remoteNames])
          · rcases hre.rNamesSub n hn with h2 | h2
            · exact Or.inl h2
            · exact Or.inr (by simp [remoteNames, h2])
        · intro i hi
          replace hi : i ∈ allRemoteIds (.rfile rid rname rm r2.remoteOut) := hi
          simp only [allRemoteIds, List.mem_cons] at hi
          rcases hi with rfl | hi
          · exact Or.inl (by simp [allRemoteIds])
          · rcases hre.ridsOut i hi with h2 | h2
            · exact Or.inl (by simp [allRemoteIds, h2])
            · exact Or.inr h2
      · -- a live record by remote id: the file was deleted locally
        simp only [hfind, htr, if_true] at h
        rcases hrest : syncRemote now rest pid pending D
            (delete_record db (D ++ [rname])) supply with e | r2
        · rw [hrest] at h; cases h
        rw [hrest] at h
        simp only [Except.ok.injEq] at h
        subst h
        have hcons1 : ConsistentWith D rest (delete_record db (D ++ [rname])) :=
          fun rec hm pi hpi hi => hconsR rec (mem_delete_record.mp hm).1 pi hpi hi
        have hF1 : ∀ rec ∈ delete_record db (D ++ [rname]), rec.remoteId < supply :=
          fun rec hm => hF rec (mem_delete_record.mp hm).1
        have hre := ih pending pid D _ supply r2 hnamesR hidsR hpend
          (dbPathsNodup_delete hP) (dbIdsNodup_delete hI) hcons1 hRFR hF1 hrest
        refine ⟨?_, ?_, ?_, ?_, ?_, ?_, ?_, ?_, ?_, ?_, ?_, ?_, ?_, ?_⟩
        · exact hre.aligned
        · intro op hop
          replace hop : op ∈ DbOp.delete (D ++ [rname]) :: r2.dbOps := hop
          rcases List.mem_cons.mp hop with rfl | hop
          · exact ⟨rname, [], rfl, Or.inr (by simp [remoteNames])⟩
          · obtain ⟨n2, s2, hp2, hn2⟩ := hre.opsPath op hop
            refine ⟨n2, s2, hp2, ?_⟩
            rcases hn2 with hn2 | hn2
            · exact Or.inl hn2
            · exact Or.inr (by simp [remoteNames, hn2])
        · intro op hop i hi
          replace hop : op ∈ DbOp.delete (D ++ [rname]) :: r2.dbOps := hop
          rcases List.mem_cons.mp hop with rfl | hop
          · cases hi
          · rcases hre.opsInsId op hop i hi with h2 | h2
            · exact Or.inl (by simp [allRemoteIds, h2])
            · exact Or.inr h2
        · exact hre.supplyLe
        · intro rec hm havoidP havoidI
          replace havoidP : ∀ op ∈ DbOp.delete (D ++ [rname]) :: r2.dbOps,
            dbOpPath op ≠ rec.localPath := havoidP
          replace havoidI : ∀ op ∈ DbOp.delete (D ++ [rname]) :: r2.dbOps,
            dbOpInsertId op ≠ some rec.remoteId := havoidI
          show rec ∈ r2.ledger
          refine hre.pres rec ?_
            (fun op hop => havoidP op (List.mem_cons_of_mem _ hop))
            (fun op hop => havoidI op (List.mem_cons_of_mem _ hop))
          exact delete_record_keeps hm
            (fun hc => havoidP _ (List.mem_cons_self _ _) (by simp [dbOpPath, hc]))
        · exact hre.nodupP
        · exact hre.nodupI
        · exact hre.freshOut
        · intro rec hm
          replace hm : rec ∈ r2.ledger := hm
          rcases hre.newRec rec hm with hmm | ⟨ll, lr, hins⟩
          · exact Or.inl (mem_delete_record.mp hmm).1
          · refine Or.inr ⟨ll, lr, ?_⟩
            show _ ∈ DbOp.delete (D ++ [rname]) :: r2.dbOps
            exact List.mem_cons_of_mem _ hins
        · exact hre.lPathsOK
        · exact hre.lNamesOK
        · intro n hn
          replace hn : n ∈ localNames r2.localOut := hn
          rcases hre.lNamesSub n hn with h2 | h2
          · exact Or.inl h2
          · exact Or.inr (by simp [remoteNames, h2])
        · intro n hn
          replace hn : n ∈ remoteNames r2.remoteOut := hn
          rcases hre.rNamesSub n hn with h2 | h2
          · exact Or.inl h2
          · exact Or.inr (by simp [remoteNames, h2])
        · intro i hi
          replace hi : i ∈ allRemoteIds r2.remoteOut := hi
          rcases hre.ridsOut i hi with h2 | h2
          · exact Or.inl (by simp [allRemoteIds, h2])
          · exact Or.inr h2
    · rcases v with ⟨vn, lpath, lm⟩ | ⟨vn, vp, vm, vc⟩
      · -- a name-matched local file
        obtain ⟨hvn, hlp⟩ := pendingOK_pfile hpend hfind
        simp only [hfind] at h
        have hkeyserase : rname ∉ dictKeys (dictErase pending rname) :=
          self_notMem_dictKeys_erase
        have hpend2 : PendingOK D (dictErase pending rname) := pendingOK_erase hpend
        have hpind : ∃ s, lpath = D ++ rname :: s := ⟨[], by rw [hlp]⟩
        rcases processMatchedFile_spec now db lpath lm rid rm with
          ⟨hgt, hmf⟩ | ⟨hgt, hmf⟩ | ⟨hgt, ⟨bv, hbv, hbne, hble⟩, hmf⟩ |
          ⟨hgt, ⟨bv, hbv, hbne, hble⟩, hmf⟩ | ⟨heq, hmf⟩
        · -- push: local file is a genuinely new edit
          simp only [hmf] at h
          rcases hrest : syncRemote now rest pid (dictErase pending rname) D
              (insert_record db lpath rid lm now) supply with e | r2
          · rw [hrest] at h; cases h
          rw [hrest] at h
          simp only [Except.ok.injEq] at h
          subst h
          have hcons1 : ConsistentWith D rest (insert_record db lpath rid lm now) := by
            intro rec hm pi hpi hi
            rcases mem_insert_record.mp hm with ⟨hmm, -, -⟩ | rfl
            · exact hconsR rec hmm pi hpi hi
            · exfalso
              have h4 := entry_id_mem pi hpi
              rw [← hi] at h4
              exact hridnot h4
          have hF1 : ∀ rec ∈ insert_record db lpath rid lm now, rec.remoteId < supply := by
            intro rec hm
            rcases mem_insert_record.mp hm with ⟨hmm, -, -⟩ | rfl
            · exact hF rec hmm
            · exact hridF
          have hre := ih (dictErase pending rname) pid D _ supply r2 hnamesR hidsR hpend2
            (dbPathsNodup_insert hP) (dbIdsNodup_insert hI) hcons1 hRFR hF1 hrest
          have hrec0 : (⟨lpath, rid, lm, now⟩ : LedgerRecord) ∈ r2.ledger :=
            rec_survives_estab hre (mem_insert_record.mpr (Or.inr rfl)) hpind
              hkeyserase hnotin hridnot hridF
          have hkout : rname ∉ localNames r2.localOut := by
            intro hmem
            rcases hre.lNamesSub rname hmem with hmem2 | hmem2
            · exact hkeyserase hmem2
            · exact hnotin hmem2
          have hlnok : localNamesOK (.lfile rname lpath lm r2.localOut) = true := by
            simp only [localNamesOK, Bool.and_eq_true, Bool.not_eq_true']
            exact ⟨by simpa using hkout, hre.lNamesOK⟩
          refine ⟨?_, ?_, ?_, ?_, ?_, ?_, ?_, ?_, ?_, ?_, ?_, ?_, ?_, ?_⟩
          · show AlignedPend r2.ledger (.rfile rid rname now r2.remoteOut)
              (buildLocalDict (.lfile rname lpath lm r2.localOut))
            rw [buildLocalDict_eq hlnok]
            simp only [listingPairs, AlignedPend]
            constructor
            · refine ⟨rname, lpath, lm, dictFind_cons_self, ?_, ?_⟩
              · intro hgt2
                exact ⟨⟨lpath, rid, lm, now⟩, hrec0, rfl, le_refl _, by show lm ≠ 0; omega⟩
              · intro hgt2
                exact ⟨⟨lpath, rid, lm, now⟩, hrec0, rfl, rfl, le_refl _, by show now ≠ 0; omega⟩
            · rw [dictErase_cons_self, ← buildLocalDict_eq hre.lNamesOK]
              · exact hre.aligned
              · intro kv2 hkv2 hcontra
                apply hkout
                rw [← dictKeys_listingPairs, ← hcontra]
                exact List.mem_map_of_mem _ hkv2
          · intro op hop
            replace hop : op ∈ DbOp.insert lpath rid lm now :: r2.dbOps := hop
            rcases List.mem_cons.mp hop with rfl | hop
            · exact ⟨rname, [], by simp [dbOpPath, hlp], Or.inr (by simp [remoteNames])⟩
            · obtain ⟨n2, s2, hp2, hn2⟩ := hre.opsPath op hop
              refine ⟨n2, s2, hp2, ?_⟩
              rcases hn2 with hn2 | hn2
              · exact Or.inl (dictKeys_erase_subset hn2).1
              · exact Or.inr (by simp [remoteNames, hn2])
          · intro op hop i hi
            replace hop : op ∈ DbOp.insert lpath rid lm now :: r2.dbOps := hop
            rcases List.mem_cons.mp hop with rfl | hop
            · simp only [dbOpInsertId, Option.some.injEq] at hi
              subst hi
              exact Or.inl (by simp [allRemoteIds])
            · rcases hre.opsInsId op hop i hi with h2 | h2
              · exact Or.inl (by simp [allRemoteIds, h2])
              · exact Or.inr h2
          · exact hre.supplyLe
          · intro rec hm havoidP havoidI
            replace havoidP : ∀ op ∈ DbOp.insert lpath rid lm now :: r2.dbOps,
              dbOpPath op ≠ rec.localPath := havoidP
            replace havoidI : ∀ op ∈ DbOp.insert lpath rid lm now :: r2.dbOps,
              dbOpInsertId op ≠ some rec.remoteId := havoidI
            show rec ∈ r2.ledger
            refine hre.pres rec ?_
              (fun op hop => havoidP op (List.mem_cons_of_mem _ hop))
              (fun op hop => havoidI op (List.mem_cons_of_mem _ hop))
            refine insert_record_keeps hm ?_ ?_
            · exact fun hc => havoidP _ (List.mem_cons_self _ _) (by simp [dbOpPath, hc])
            · exact fun hc => havoidI _ (List.mem_cons_self _ _) (by simp [dbOpInsertId, hc])
          · exact hre.nodupP
          · exact hre.nodupI
          · exact hre.freshOut
          · intro rec hm
            replace hm : rec ∈ r2.ledger := hm
            rcases hre.newRec rec hm with hmm | ⟨ll, lr, hins⟩
            · rcases mem_insert_record.mp hmm with ⟨hdb, -, -⟩ | rfl
              · exact Or.inl hdb
              · refine Or.inr ⟨lm, now, ?_⟩
                show _ ∈ DbOp.insert lpath rid lm now :: r2.dbOps
                exact List.mem_cons_self _ _
            · refine Or.inr ⟨ll, lr, ?_⟩
              show _ ∈ DbOp.insert lpath rid lm now :: r2.dbOps
              exact List.mem_cons_of_mem _ hins
          · show localPathsOK D (.lfile rname lpath lm r2.localOut) = true
            simp only [localPathsOK, Bool.and_eq_true, beq_iff_eq]
            exact ⟨hlp, hre.lPathsOK⟩
          · exact hlnok
          · intro n hn
            replace hn : n ∈ localNames (.lfile rname lpath lm r2.localOut) := hn
            simp only [localNames, List.mem_cons] at hn
            rcases hn with rfl | hn
            · exact Or.inl (dictKeys_of_find_some hfind)
            · rcases hre.lNamesSub n hn with h2 | h2
              · exact Or.inl (dictKeys_erase_subset h2).1
              · exact Or.inr (by simp [remoteNames, h2])
          · intro n hn
            replace hn : n ∈ remoteNames (.rfile rid rname now r2.remoteOut) := hn
            simp only [remoteNames, List.mem_cons] at hn
            rcases hn with rfl | hn
            · exact Or.inl (dictKeys_of_find_some hfind)
            · rcases hre.rNamesSub n hn with h2 | h2
              · exact Or.inl (dictKeys_erase_subset h2).1
              · exact Or.inr (by simp [remoteNames, h2])
          · intro i hi
            replace hi : i ∈ allRemoteIds (.rfile rid rname now r2.remoteOut) := hi
            simp only [allRemoteIds, List.mem_cons] at hi
            rcases hi with rfl | hi
            · exact Or.inl (by simp [allRemoteIds])
            · rcases hre.ridsOut i hi with h2 | h2
              · exact Or.inl (by simp [allRemoteIds, h2])
              · exact Or.inr h2
        · -- pull: remote file is a genuinely new edit
          simp only [hmf] at h
          rcases hrest : syncRemote now rest pid (dictErase pending rname) D
              (insert_record db lpath rid now rm) supply with e | r2
          · rw [hrest] at h; cases h
          rw [hrest] at h
          simp only [Except.ok.injEq] at h
          subst h
          have hcons1 : ConsistentWith D rest (insert_record db lpath rid now rm) := by
            intro rec hm pi hpi hi
            rcases mem_insert_record.mp hm with ⟨hmm, -, -⟩ | rfl
            · exact hconsR rec hmm pi hpi hi
            · exfalso
              have h4 := entry_id_mem pi hpi
              rw [← hi] at h4
              exact hridnot h4
          have hF1 : ∀ rec ∈ insert_record db lpath rid now rm, rec.remoteId < supply := by
            intro rec hm
            rcases mem_insert_record.mp hm with ⟨hmm, -, -⟩ | rfl
            · exact hF rec hmm
            · exact hridF
          have hre := ih (dictErase pending rname) pid D _ supply r2 hnamesR hidsR hpend2
            (dbPathsNodup_insert hP) (dbIdsNodup_insert hI) hcons1 hRFR hF1 hrest
          have hrec0 : (⟨lpath, rid, now, rm⟩ : LedgerRecord) ∈ r2.ledger :=
            rec_survives_estab hre (mem_insert_record.mpr (Or.inr rfl)) hpind
              hkeyserase hnotin hridnot hridF
          have hkout : rname ∉ localNames r2.localOut := by
            intro hmem
            rcases hre.lNamesSub rname hmem with hmem2 | hmem2
            · exact hkeyserase hmem2
            · exact hnotin hmem2
          have hlnok : localNamesOK (.lfile rname lpath now r2.localOut) = true := by
            simp only [localNamesOK, Bool.and_eq_true, Bool.not_eq_true']
            exact ⟨by simpa using hkout, hre.lNamesOK⟩
          refine ⟨?_, ?_, ?_, ?_, ?_, ?_, ?_, ?_, ?_, ?_, ?_, ?_, ?_, ?_⟩
          · show AlignedPend r2.ledger (.rfile rid rname rm r2.remoteOut)
              (buildLocalDict (.lfile rname lpath now r2.localOut))
            rw [buildLocalDict_eq hlnok]
            simp only [listingPairs, AlignedPend]
            constructor
            · refine ⟨rname, lpath, now, dictFind_cons_self, ?_, ?_⟩
              · intro hgt2
                exact ⟨⟨lpath, rid, now, rm⟩, hrec0, rfl, le_refl _, by show now ≠ 0; omega⟩
              · intro hgt2
                exact ⟨⟨lpath, rid, now, rm⟩, hrec0, rfl, rfl, le_refl _, by show rm ≠ 0; omega⟩
            · rw [dictErase_cons_self, ← buildLocalDict_eq hre.lNamesOK]
              · exact hre.aligned
              · intro kv2 hkv2 hcontra
                apply hkout
                rw [← dictKeys_listingPairs, ← hcontra]
                exact List.mem_map_of_mem _ hkv2
          · intro op hop
            replace hop : op ∈ DbOp.insert lpath rid now rm :: r2.dbOps := hop
            rcases List.mem_cons.mp hop with rfl | hop
            · exact ⟨rname, [], by simp [dbOpPath, hlp], Or.inr (by simp [remoteNames])⟩
            · obtain ⟨n2, s2, hp2, hn2⟩ := hre.opsPath op hop
              refine ⟨n2, s2, hp2, ?_⟩
              rcases hn2 with hn2 | hn2
              · exact Or.inl (dictKeys_erase_subset hn2).1
              · exact Or.inr (by simp [remoteNames, hn2])
          · intro op hop i hi
            replace hop : op ∈ DbOp.insert lpath rid now rm :: r2.dbOps := hop
            rcases List.mem_cons.mp hop with rfl | hop
            · simp only [dbOpInsertId, Option.some.injEq] at hi
              subst hi
              exact Or.inl (by simp [allRemoteIds])
            · rcases hre.opsInsId op hop i hi with h2 | h2
              · exact Or.inl (by simp [allRemoteIds, h2])
              · exact Or.inr h2
          · exact hre.supplyLe
          · intro rec hm havoidP havoidI
            replace havoidP : ∀ op ∈ DbOp.insert lpath rid now rm :: r2.dbOps,
              dbOpPath op ≠ rec.localPath := havoidP
            replace havoidI : ∀ op ∈ DbOp.insert lpath rid now rm :: r2.dbOps,
              dbOpInsertId op ≠ some rec.remoteId := havoidI
            show rec ∈ r2.ledger
            refine hre.pres rec ?_
              (fun op hop => havoidP op (List.mem_cons_of_mem _ hop))
              (fun op hop => havoidI op (List.mem_cons_of_mem _ hop))
            refine insert_record_keeps hm ?_ ?_
            · exact fun hc => havoidP _ (List.mem_cons_self _ _) (by simp [dbOpPath, hc])
            · exact fun hc => havoidI _ (List.mem_cons_self _ _) (by simp [dbOpInsertId, hc])
          · exact hre.nodupP
          · exact hre.nodupI
          · exact hre.freshOut
          · intro rec hm
            replace hm : rec ∈ r2.ledger := hm
            rcases hre.newRec rec hm with hmm | ⟨ll, lr, hins⟩
            · rcases mem_insert_record.mp hmm with ⟨hdb, -, -⟩ | rfl
              · exact Or.inl hdb
              · refine Or.inr ⟨now, rm, ?_⟩
                show _ ∈ DbOp.insert lpath rid now rm :: r2.dbOps
                exact List.mem_cons_self _ _
            · refine Or.inr ⟨ll, lr, ?_⟩
              show _ ∈ DbOp.insert lpath rid now rm :: r2.dbOps
              exact List.mem_cons_of_mem _ hins
          · show localPathsOK D (.lfile rname lpath now r2.localOut) = true
            simp only [localPathsOK, Bool.and_eq_true, beq_iff_eq]
            exact ⟨hlp, hre.lPathsOK⟩
          · exact hlnok
          · intro n hn
            replace hn : n ∈ localNames (.lfile rname lpath now r2.localOut) := hn
            simp only [localNames, List.mem_cons] at hn
            rcases hn with rfl | hn
            · exact Or.inl (dictKeys_of_find_some hfind)
            · rcases hre.lNamesSub n hn with h2 | h2
              · exact Or.inl (dictKeys_erase_subset h2).1
              · exact Or.inr (by simp [remoteNames, h2])
          · intro n hn
            replace hn : n ∈ remoteNames (.rfile rid rname rm r2.remoteOut) := hn
            simp only [remoteNames, List.mem_cons] at hn
            rcases hn with rfl | hn
            · exact Or.inl (dictKeys_of_find_some hfind)
            · rcases hre.rNamesSub n hn with h2 | h2
              · exact Or.inl (dictKeys_erase_subset h2).1
              · exact Or.inr (by simp [remoteNames, h2])
          · intro i hi
            replace hi : i ∈ allRemoteIds (.rfile rid rname rm r2.remoteOut) := hi
            simp only [allRemoteIds, List.mem_cons] at hi
            rcases hi with rfl | hi
            · exact Or.inl (by simp [allRemoteIds])
            · rcases hre.ridsOut i hi with h2 | h2
              · exact Or.inl (by simp [allRemoteIds, h2])
              · exact Or.inr h2
        · -- local looks newer but the ledger blocks the push
          simp only [hmf] at h
          rcases hrest : syncRemote now rest pid (dictErase pending rname) D db supply
            with e | r2
          · rw [hrest] at h; cases h
          rw [hrest] at h
          simp only [Except.ok.injEq] at h
          subst h
          have hre := ih (dictErase pending rname) pid D db supply r2 hnamesR hidsR hpend2
            hP hI hconsR hRFR hF hrest
          obtain ⟨rec0, hm0, hrp0, hrv0⟩ := glmd_extract hbv
          have hpath0 : ∃ s, rec0.localPath = D ++ rname :: s := ⟨[], by rw [hrp0, hlp]⟩
          have hid0 : rec0.remoteId ∉ allRemoteIds rest :=
            consistent_not_id_of_path_head hcons (fun pi hpi => entries_file_rest hpi)
              hm0 hpath0 hnotin
          have hrec0 : rec0 ∈ r2.ledger :=
            rec_survives_estab hre hm0 hpath0 hkeyserase hnotin hid0 (hF rec0 hm0)
          have hkout : rname ∉ localNames r2.localOut := by
            intro hmem
            rcases hre.lNamesSub rname hmem with hmem2 | hmem2
            · exact hkeyserase hmem2
            · exact hnotin hmem2
          have hlnok : localNamesOK (.lfile rname lpath lm r2.localOut) = true := by
            simp only [localNamesOK, Bool.and_eq_true, Bool.not_eq_true']
            exact ⟨by simpa using hkout, hre.lNamesOK⟩
          refine ⟨?_, ?_, ?_, ?_, ?_, ?_, ?_, ?_, ?_, ?_, ?_, ?_, ?_, ?_⟩
          · show AlignedPend r2.ledger (.rfile rid rname rm r2.remoteOut)
              (buildLocalDict (.lfile rname lpath lm r2.localOut))
            rw [buildLocalDict_eq hlnok]
            simp only [listingPairs, AlignedPend]
            constructor
            · refine ⟨rname, lpath, lm, dictFind_cons_self, ?_, ?_⟩
              · intro hgt2
                exact ⟨rec0, hrec0, hrp0, hrv0 ▸ hble, hrv0 ▸ hbne⟩
              · intro hgt2
                exact absurd hgt2 (by omega)
            · rw [dictErase_cons_self, ← buildLocalDict_eq hre.lNamesOK]
              · exact hre.aligned
              · intro kv2 hkv2 hcontra
                apply hkout
                rw [← dictKeys_listingPairs, ← hcontra]
                exact List.mem_map_of_mem _ hkv2
          · intro op hop
            replace hop : op ∈ r2.dbOps := hop
            obtain ⟨n2, s2, hp2, hn2⟩ := hre.opsPath op hop
            refine ⟨n2, s2, hp2, ?_⟩
            rcases hn2 with hn2 | hn2
            · exact Or.inl (dictKeys_erase_subset hn2).1
            · exact Or.inr (by simp [remoteNames, hn2])
          · intro op hop i hi
            replace hop : op ∈ r2.dbOps := hop
            rcases hre.opsInsId op hop i hi with h2 | h2
            · exact Or.inl (by simp [allRemoteIds, h2])
            · exact Or.inr h2
          · exact hre.supplyLe
          · intro rec hm havoidP havoidI
            replace havoidP : ∀ op ∈ r2.dbOps, dbOpPath op ≠ rec.localPath := havoidP
            replace havoidI : ∀ op ∈ r2.dbOps, dbOpInsertId op ≠ some rec.remoteId := havoidI
            show rec ∈ r2.ledger
            exact hre.pres rec hm havoidP havoidI
          · exact hre.nodupP
          · exact hre.nodupI
          · exact hre.freshOut
          · intro rec hm
            replace hm : rec ∈ r2.ledger := hm
            rcases hre.newRec rec hm with hmm | ⟨ll, lr, hins⟩
            · exact Or.inl hmm
            · exact Or.inr ⟨ll, lr, hins⟩
          · show localPathsOK D (.lfile rname lpath lm r2.localOut) = true
            simp only [localPathsOK, Bool.and_eq_true, beq_iff_eq]
            exact ⟨hlp, hre.lPathsOK⟩
          · exact hlnok
          · intro n hn
            replace hn : n ∈ localNames (.lfile rname lpath lm r2.localOut) := hn
            simp only [localNames, List.mem_cons] at hn
            rcases hn with rfl | hn
            · exact Or.inl (dictKeys_of_find_some hfind)
            · rcases hre.lNamesSub n hn with h2 | h2
              · exact Or.inl (dictKeys_erase_subset h2).1
              · exact Or.inr (by simp [remoteNames, h2])
          · intro n hn
            replace hn : n ∈ remoteNames (.rfile rid rname rm r2.remoteOut) := hn
            simp only [remoteNames, List.mem_cons] at hn
            rcases hn with rfl | hn
            · exact Or.inl (dictKeys_of_find_some hfind)
            · rcases hre.rNamesSub n hn with h2 | h2
              · exact Or.inl (dictKeys_erase_subset h2).1
              · exact Or.inr (by simp [remoteNames, h2])
          · intro i hi
            replace hi : i ∈ allRemoteIds (.rfile rid rname rm r2.remoteOut) := hi
            simp only [allRemoteIds, List.mem_cons] at hi
            rcases hi with rfl | hi
            · exact Or.inl (by simp [allRemoteIds])
            · rcases hre.ridsOut i hi with h2 | h2
              · exact Or.inl (by simp [allRemoteIds, h2])
              · exact Or.inr h2
        · -- remote looks newer but the ledger blocks the pull
          simp only [hmf] at h
          rcases hrest : syncRemote now rest pid (dictErase pending rname) D db supply
            with e | r2
          · rw [hrest] at h; cases h
          rw [hrest] at h
          simp only [Except.ok.injEq] at h
          subst h
          have hre := ih (dictErase pending rname) pid D db supply r2 hnamesR hidsR hpend2
            hP hI hconsR hRFR hF hrest
          obtain ⟨rec0, hm0, hri0, hrv0⟩ := grmd_extract hbv
          have hrp0 : rec0.localPath = D ++ [rname] :=
            hcons rec0 hm0 (D ++ [rname], rid) entries_file_self hri0
          have hpath0 : ∃ s, rec0.localPath = D ++ rname :: s := ⟨[], by rw [hrp0]⟩
          have hrec0 : rec0 ∈ r2.ledger :=
            rec_survives_estab hre hm0 hpath0 hkeyserase hnotin (hri0 ▸ hridnot)
              (hri0 ▸ hridF)
          have hkout : rname ∉ localNames r2.localOut := by
            intro hmem
            rcases hre.lNamesSub rname hmem with hmem2 | hmem2
            · exact hkeyserase hmem2
            · exact hnotin hmem2
          have hlnok : localNamesOK (.lfile rname lpath lm r2.localOut) = true := by
            simp only [localNamesOK, Bool.and_eq_true, Bool.not_eq_true']
            exact ⟨by simpa using hkout, hre.lNamesOK⟩
          refine ⟨?_, ?_, ?_, ?_, ?_, ?_, ?_, ?_, ?_, ?_, ?_, ?_, ?_, ?_⟩
          · show AlignedPend r2.ledger (.rfile rid rname rm r2.remoteOut)
              (buildLocalDict (.lfile rname lpath lm r2.localOut))
            rw [buildLocalDict_eq hlnok]
            simp only [listingPairs, AlignedPend]
            constructor
            · refine ⟨rname, lpath, lm, dictFind_cons_self, ?_, ?_⟩
              · intro hgt2
                exact absurd hgt2 (by omega)
              · intro hgt2
                refine ⟨rec0, hrec0, by rw [hrp0, hlp], hri0, hrv0 ▸ hble, hrv0 ▸ hbne⟩
            · rw [dictErase_cons_self, ← buildLocalDict_eq hre.lNamesOK]
              · exact hre.aligned
              · intro kv2 hkv2 hcontra
                apply hkout
                rw [← dictKeys_listingPairs, ← hcontra]
                exact List.mem_map_of_mem _ hkv2
          · intro op hop
            replace hop : op ∈ r2.dbOps := hop
            obtain ⟨n2, s2, hp2, hn2⟩ := hre.opsPath op hop
            refine ⟨n2, s2, hp2, ?_⟩
            rcases hn2 with hn2 | hn2
            · exact Or.inl (dictKeys_erase_subset hn2).1
            · exact Or.inr (by simp [remoteNames, hn2])
          · intro op hop i hi
            replace hop : op ∈ r2.dbOps := hop
            rcases hre.opsInsId op hop i hi with h2 | h2
            · exact Or.inl (by simp [allRemoteIds, h2])
            · exact Or.inr h2
          · exact hre.supplyLe
          · intro rec hm havoidP havoidI
            replace havoidP : ∀ op ∈ r2.dbOps, dbOpPath op ≠ rec.localPath := havoidP
            replace havoidI : ∀ op ∈ r2.dbOps, dbOpInsertId op ≠ some rec.remoteId := havoidI
            show rec ∈ r2.ledger
            exact hre.pres rec hm havoidP havoidI
          · exact hre.nodupP
          · exact hre.nodupI
          · exact hre.freshOut
          · intro rec hm
            replace hm : rec ∈ r2.ledger := hm
            rcases hre.newRec rec hm with hmm | ⟨ll, lr, hins⟩
            · exact Or.inl hmm
            · exact Or.inr ⟨ll, lr, hins⟩
          · show localPathsOK D (.lfile rname lpath lm r2.localOut) = true
            simp only [localPathsOK, Bool.and_eq_true, beq_iff_eq]
            exact ⟨hlp, hre.lPathsOK⟩
          · exact hlnok
          · intro n hn
            replace hn : n ∈ localNames (.lfile rname lpath lm r2.localOut) := hn
            simp only [localNames, List.mem_cons] at hn
            rcases hn with rfl | hn
            · exact Or.inl (dictKeys_of_find_some hfind)
            · rcases hre.lNamesSub n hn with h2 | h2
              · exact Or.inl (dictKeys_erase_subset h2).1
              · exact Or.inr (by simp [remoteNames, h2])
          · intro n hn
            replace hn : n ∈ remoteNames (.rfile rid rname rm r2.remoteOut) := hn
            simp only [remoteNames, List.mem_cons] at hn
            rcases hn with rfl | hn
            · exact Or.inl (dictKeys_of_find_some hfind)
            · rcases hre.rNamesSub n hn with h2 | h2
              · exact Or.inl (dictKeys_erase_subset h2).1
              · exact Or.inr (by simp [remoteNames, h2])
          · intro i hi
            replace hi : i ∈ allRemoteIds (.rfile rid rname rm r2.remoteOut) := hi
            simp only [allRemoteIds, List.mem_cons] at hi
            rcases hi with rfl | hi
            · exact Or.inl (by simp [allRemoteIds])
            · rcases hre.ridsOut i hi with h2 | h2
              · exact Or.inl (by simp [allRemoteIds, h2])
              · exact Or.inr h2
        · -- equal timestamps: no action
          simp only [hmf] at h
          rcases hrest : syncRemote now rest pid (dictErase pending rname) D db supply
            with e | r2
          · rw [hrest] at h; cases h
          rw [hrest] at h
          simp only [Except.ok.injEq] at h
          subst h
          have hre := ih (dictErase pending rname) pid D db supply r2 hnamesR hidsR hpend2
            hP hI hconsR hRFR hF hrest
          have hkout : rname ∉ localNames r2.localOut := by
            intro hmem
            rcases hre.lNamesSub rname hmem with hmem2 | hmem2
            · exact hkeyserase hmem2
            · exact hnotin hmem2
          have hlnok : localNamesOK (.lfile rname lpath lm r2.localOut) = true := by
            simp only [localNamesOK, Bool.and_eq_true, Bool.not_eq_true']
            exact ⟨by simpa using hkout, hre.lNamesOK⟩
          refine ⟨?_, ?_, ?_, ?_, ?_, ?_, ?_, ?_, ?_, ?_, ?_, ?_, ?_, ?_⟩
          · show AlignedPend r2.ledger (.rfile rid rname rm r2.remoteOut)
              (buildLocalDict (.lfile rname lpath lm r2.localOut))
            rw [buildLocalDict_eq hlnok]
            simp only [listingPairs, AlignedPend]
            constructor
            · refine ⟨rname, lpath, lm, dictFind_cons_self, ?_, ?_⟩
              · intro hgt2
                exact absurd hgt2 (by omega)
              · intro hgt2
                exact absurd hgt2 (by omega)
            · rw [dictErase_cons_self, ← buildLocalDict_eq hre.lNamesOK]
              · exact hre.aligned
              · intro kv2 hkv2 hcontra
                apply hkout
                rw [← dictKeys_listingPairs, ← hcontra]
                exact List.mem_map_of_mem _ hkv2
          · intro op hop
            replace hop : op ∈ r2.dbOps := hop
            obtain ⟨n2, s2, hp2, hn2⟩ := hre.opsPath op hop
            refine ⟨n2, s2, hp2, ?_⟩
            rcases hn2 with hn2 | hn2
            · exact Or.inl (dictKeys_erase_subset hn2).1
            · exact Or.inr (by simp [remoteNames, hn2])
          · intro op hop i hi
            replace hop : op ∈ r2.dbOps := hop
            rcases hre.opsInsId op hop i hi with h2 | h2
            · exact Or.inl (by simp [allRemoteIds, h2])
            · exact Or.inr h2
          · exact hre.supplyLe
          · intro rec hm havoidP havoidI
            replace havoidP : ∀ op ∈ r2.dbOps, dbOpPath op ≠ rec.localPath := havoidP
            replace havoidI : ∀ op ∈ r2.dbOps, dbOpInsertId op ≠ some rec.remoteId := havoidI
            show rec ∈ r2.ledger
            exact hre.pres rec hm havoidP havoidI
          · exact hre.nodupP
          · exact hre.nodupI
          · exact hre.freshOut
          · intro rec hm
            replace hm : rec ∈ r2.ledger := hm
            rcases hre.newRec rec hm with hmm | ⟨ll, lr, hins⟩
            · exact Or.inl hmm
            · exact Or.inr ⟨ll, lr, hins⟩
          · show localPathsOK D (.lfile rname lpath lm r2.localOut) = true
            simp only [localPathsOK, Bool.and_eq_true, beq_iff_eq]
            exact ⟨hlp, hre.lPathsOK⟩
          · exact hlnok
          · intro n hn
            replace hn : n ∈ localNames (.lfile rname lpath lm r2.localOut) := hn
            simp only [localNames, List.mem_cons] at hn
            rcases hn with rfl | hn
            · exact Or.inl (dictKeys_of_find_some hfind)
            · rcases hre.lNamesSub n hn with h2 | h2
              · exact Or.inl (dictKeys_erase_subset h2).1
              · exact Or.inr (by simp [remoteNames, h2])
          · intro n hn
            replace hn : n ∈ remoteNames (.rfile rid rname rm r2.remoteOut) := hn
            simp only [remoteNames, List.mem_cons] at hn
            rcases hn with rfl | hn
            · exact Or.inl (dictKeys_of_find_some hfind)
            · rcases hre.rNamesSub n hn with h2 | h2
              · exact Or.inl (dictKeys_erase_subset h2).1
              · exact Or.inr (by simp [remoteNames, h2])
          · intro i hi
            replace hi : i ∈ allRemoteIds (.rfile rid rname rm r2.remoteOut) := hi
            simp only [allRemoteIds, List.mem_cons] at hi
            rcases hi with rfl | hi
            · exact Or.inl (by simp [allRemoteIds])
            · rcases hre.ridsOut i hi with h2 | h2
              · exact Or.inl (by simp [allRemoteIds, h2])
              · exact Or.inr h2
      · -- a remote file whose name matches a local directory: AttributeError
        simp only [hfind] at h
        cases h
  | rfolder rid rname rm c rest ihc ih =>
    intro pending pid D db supply res hnames hids hpend hP hI hcons hRF hF h
    obtain ⟨hnotin, hcok, hrok⟩ := namesOK_folder hnames
    obtain ⟨hcnodup, hrnodup, hdisj, hridc, hridr⟩ := nodup_ids_folder hids
    have hconsR : ConsistentWith D rest db :=
      fun rec hm pi hpi hi => hcons rec hm pi (entries_folder_rest hpi) hi
    have hconsC : ConsistentWith (D ++ [rname]) c db :=
      fun rec hm pi hpi hi => hcons rec hm pi (entries_folder_children hpi) hi
    have hcidF : ∀ i ∈ allRemoteIds c, i < supply := by
      intro i hi
      refine hRF i ?_
      simp only [allRemoteIds, List.mem_cons, List.mem_append]
      exact Or.inr (Or.inl hi)
    have hridsF : ∀ i ∈ allRemoteIds rest, i < supply := by
      intro i hi
      refine hRF i ?_
      simp only [allRemoteIds, List.mem_cons, List.mem_append]
      exact Or.inr (Or.inr hi)
    have hridF : rid < supply := hRF rid (by simp [allRemoteIds])
    simp only [syncRemote] at h
    rcases hfind : dictFind pending rname with _ | v
    · -- no local counterpart
      have hkeys0 : rname ∉ dictKeys pending := notMem_dictKeys_of_find_none hfind
      rcases htr : pyTruthyPath (get_local_file_path db rid) with _ | _
      · -- no record either: create the folder locally and recurse
        simp only [hfind, htr, Bool.false_eq_true, if_false] at h
        rcases hchild : syncRemote now c rid (buildLocalDict .lnil) (D ++ [rname])
            (insert_record db (D ++ [rname]) rid now rm) supply with e | rc
        · rw [hchild] at h; cases h
        simp only [hchild] at h
        rcases hrest : syncRemote now rest pid pending D rc.ledger rc.supply with e | r2
        · rw [hrest] at h; cases h
        rw [hrest] at h
        simp only [Except.ok.injEq] at h
        subst h
        have hcons1 : ConsistentWith (D ++ [rname]) c
            (insert_record db (D ++ [rname]) rid now rm) := by
          intro rec hm pi hpi hi
          rcases mem_insert_record.mp hm with ⟨hmm, -, -⟩ | rfl
          · exact hconsC rec hmm pi hpi hi
          · exfalso
            have h4 := entry_id_mem pi hpi
            rw [← hi] at h4
            exact hridc h4
        have hF1 : ∀ rec ∈ insert_record db (D ++ [rname]) rid now rm,
            rec.remoteId < supply := by
          intro rec hm
          rcases mem_insert_record.mp hm with ⟨hmm, -, -⟩ | rfl
          · exact hF rec hmm
          · exact hridF
        have hpnil : PendingOK (D ++ [rname]) (buildLocalDict .lnil) :=
          pendingOK_build rfl rfl
        have hce := ihc (buildLocalDict .lnil) rid (D ++ [rname]) _ supply rc hcok hcnodup
          hpnil (dbPathsNodup_insert hP) (dbIdsNodup_insert hI) hcons1 hcidF hF1 hchild
        have hconsR2 : ConsistentWith D rest rc.ledger := by
          intro rec hm pi hpi hi
          rcases hce.newRec rec hm with hold | ⟨ll, lr, hins⟩
          · rcases mem_insert_record.mp hold with ⟨hmm, -, -⟩ | rfl
            · exact hconsR rec hmm pi hpi hi
            · exfalso
              have h4 := entry_id_mem pi hpi
              rw [← hi] at h4
              exact hridr h4
          · exfalso
            rcases hce.opsInsId _ hins rec.remoteId rfl with hcm | ⟨h1, h2⟩
            · have h4 := entry_id_mem pi hpi
              rw [← hi] at h4
              exact hdisj _ hcm h4
            · have h3 := hridsF pi.2 (entry_id_mem pi hpi)
              omega
        have hridsF2 : ∀ i ∈ allRemoteIds rest, i < rc.supply :=
          fun i hi => lt_of_lt_of_le (hridsF i hi) hce.supplyLe
        have hre := ih pending pid D rc.ledger rc.supply r2 hrok hrnodup hpend
          hce.nodupP hce.nodupI hconsR2 hridsF2 hce.freshOut hrest
        have hstart : ∀ rec ∈ insert_record db (D ++ [rname]) rid now rm,
            StrictUnder (D ++ [rname]) rec.localPath →
            rec.remoteId ∉ allRemoteIds rest := by
          intro rec hm hu
          rcases mem_insert_record.mp hm with ⟨hmm, -, -⟩ | rfl
          · exact consistent_not_id_of_path_head hcons
              (fun pi hpi => entries_folder_rest hpi) hmm (strictUnder_head hu) hnotin
          · exact absurd hu (not_strictUnder_self _)
        have hchildok := child_recs_ok hce hstart hF1 hdisj hcidF hridsF
        have hkeep : ∀ rec ∈ rc.ledger, StrictUnder (D ++ [rname]) rec.localPath →
            rec ∈ r2.ledger := by
          intro rec hm hu
          exact rec_survives_estab hre hm (strictUnder_head hu) hkeys0 hnotin
            (hchildok rec hm hu).1 (hchildok rec hm hu).2
        have halC : AlignedPend r2.ledger rc.remoteOut (buildLocalDict rc.localOut) :=
          alignedPend_mono rc.remoteOut (buildLocalDict rc.localOut) (D ++ [rname])
            rc.ledger r2.ledger hce.aligned (pendingOK_build hce.lPathsOK hce.lNamesOK) hkeep
        have hkout : rname ∉ localNames r2.localOut := by
          intro hmem
          rcases hre.lNamesSub rname hmem with hmem2 | hmem2
          · exact hkeys0 hmem2
          · exact hnotin hmem2
        have hlnok : localNamesOK
            (.ldir rname (D ++ [rname]) now rc.localOut r2.localOut) = true := by
          simp only [localNamesOK, Bool.and_eq_true, Bool.not_eq_true']
          exact ⟨⟨by simpa using hkout, hce.lNamesOK⟩, hre.lNamesOK⟩
        refine ⟨?_, ?_, ?_, ?_, ?_, ?_, ?_, ?_, ?_, ?_, ?_, ?_, ?_, ?_⟩
        · show AlignedPend r2.ledger (.rfolder rid rname rm rc.remoteOut r2.remoteOut)
            (buildLocalDict (.ldir rname (D ++ [rname]) now rc.localOut r2.localOut))
          rw [buildLocalDict_eq hlnok]
          simp only [listingPairs, AlignedPend]
          constructor
          · exact ⟨rname, D ++ [rname], now, rc.localOut, dictFind_cons_self, halC⟩
          · rw [dictErase_cons_self, ← buildLocalDict_eq hre.lNamesOK]
            · exact hre.aligned
            · intro kv2 hkv2 hcontra
              apply hkout
              rw [← dictKeys_listingPairs, ← hcontra]
              exact List.mem_map_of_mem _ hkv2
        · intro op hop
          replace hop : op ∈ DbOp.insert (D ++ [rname]) rid now rm ::
            (rc.dbOps ++ r2.dbOps) := hop
          rcases List.mem_cons.mp hop with rfl | hop
          · exact ⟨rname, [], rfl, Or.inr (by simp [remoteNames])⟩
          rcases List.mem_append.mp hop with hop | hop
          · obtain ⟨n2, s2, hp2, hn2⟩ := hce.opsPath op hop
            refine ⟨rname, n2 :: s2, ?_, Or.inr (by simp [remoteNames])⟩
            rw [hp2]
            simp
          · obtain ⟨n2, s2, hp2, hn2⟩ := hre.opsPath op hop
            refine ⟨n2, s2, hp2, ?_⟩
            rcases hn2 with hn2 | hn2
            · exact Or.inl hn2
            · exact Or.inr (by simp [remoteNames, hn2])
        · intro op hop i hi
          replace hop : op ∈ DbOp.insert (D ++ [rname]) rid now rm ::
            (rc.dbOps ++ r2.dbOps) := hop
          rcases List.mem_cons.mp hop with rfl | hop
          · simp only [dbOpInsertId, Option.some.injEq] at hi
            subst hi
            exact Or.inl (by simp [allRemoteIds])
          rcases List.mem_append.mp hop with hop | hop
          · rcases hce.opsInsId op hop i hi with h2 | h2
            · refine Or.inl ?_
              simp only [allRemoteIds, List.mem_cons, List.mem_append]
              exact Or.inr (Or.inl h2)
            · exact Or.inr ⟨h2.1, lt_of_lt_of_le h2.2 hre.supplyLe⟩
          · rcases hre.opsInsId op hop i hi with h2 | h2
            · refine Or.inl ?_
              simp only [allRemoteIds, List.mem_cons, List.mem_append]
              exact Or.inr (Or.inr h2)
            · exact Or.inr ⟨le_trans hce.supplyLe h2.1, h2.2⟩
        · exact le_trans hce.supplyLe hre.supplyLe
        · intro rec hm havoidP havoidI
          replace havoidP : ∀ op ∈ DbOp.insert (D ++ [rname]) rid now rm ::
            (rc.dbOps ++ r2.dbOps), dbOpPath op ≠ rec.localPath := havoidP
          replace havoidI : ∀ op ∈ DbOp.insert (D ++ [rname]) rid now rm ::
            (rc.dbOps ++ r2.dbOps), dbOpInsertId op ≠ some rec.remoteId := havoidI
          show rec ∈ r2.ledger
          refine hre.pres rec (hce.pres rec ?_
              (fun op hop => havoidP op
                (List.mem_cons_of_mem _ (List.mem_append.mpr (Or.inl hop))))
              (fun op hop => havoidI op
                (List.mem_cons_of_mem _ (List.mem_append.mpr (Or.inl hop)))))
            (fun op hop => havoidP op
              (List.mem_cons_of_mem _ (List.mem_append.mpr (Or.inr hop))))
            (fun op hop => havoidI op
              (List.mem_cons_of_mem _ (List.mem_append.mpr (Or.inr hop))))
          refine insert_record_keeps hm ?_ ?_
          · exact fun hc2 => havoidP _ (List.mem_cons_self _ _) (by simp [dbOpPath, hc2])
          · exact fun hc2 => havoidI _ (List.mem_cons_self _ _) (by simp [dbOpInsertId, hc2])
        · exact hre.nodupP
        · exact hre.nodupI
        · exact hre.freshOut
        · intro rec hm
          replace hm : rec ∈ r2.ledger := hm
          rcases hre.newRec rec hm with hmm | ⟨ll, lr, hins⟩
          · rcases hce.newRec rec hmm with hold | ⟨ll2, lr2, hins2⟩
            · rcases mem_insert_record.mp hold with ⟨hdb, -, -⟩ | rfl
              · exact Or.inl hdb
              · refine Or.inr ⟨now, rm, ?_⟩
                show _ ∈ DbOp.insert (D ++ [rname]) rid now rm :: (rc.dbOps ++ r2.dbOps)
                exact List.mem_cons_self _ _
            · refine Or.inr ⟨ll2, lr2, ?_⟩
              show _ ∈ DbOp.insert (D ++ [rname]) rid now rm :: (rc.dbOps ++ r2.dbOps)
              exact List.mem_cons_of_mem _ (List.mem_append.mpr (Or.inl hins2))
          · refine Or.inr ⟨ll, lr, ?_⟩
            show _ ∈ DbOp.insert (D ++ [rname]) rid now rm :: (rc.dbOps ++ r2.dbOps)
            exact List.mem_cons_of_mem _ (List.mem_append.mpr (Or.inr hins))
        · show localPathsOK D
            (.ldir rname (D ++ [rname]) now rc.localOut r2.localOut) = true
          simp only [localPathsOK, Bool.and_eq_true, beq_iff_eq]
          exact ⟨⟨trivial, hce.lPathsOK⟩, hre.lPathsOK⟩
        · exact hlnok
        · intro n hn
          replace hn : n ∈ localNames
            (.ldir rname (D ++ [rname]) now rc.localOut r2.localOut) := hn
          simp only [localNames, List.mem_cons] at hn
          rcases hn with rfl | hn
          · exact Or.inr (by simp [remoteNames])
          · rcases hre.lNamesSub n hn with h2 | h2
            · exact Or.inl h2
            · exact Or.inr (by simp [remoteNames, h2])
        · intro n hn
          replace hn : n ∈ remoteNames
            (.rfolder rid rname rm rc.remoteOut r2.remoteOut) := hn
          simp only [remoteNames, List.mem_cons] at hn
          rcases hn with rfl | hn
          · exact Or.inr (by simp [remoteNames])
          · rcases hre.rNamesSub n hn with h2 | h2
            · exact Or.inl h2
            · exact Or.inr (by simp [remoteNames, h2])
        · intro i hi
          replace hi : i ∈ allRemoteIds
            (.rfolder rid rname rm rc.remoteOut r2.remoteOut) := hi
          simp only [allRemoteIds, List.mem_cons, List.mem_append] at hi
          rcases hi with rfl | hi | hi
          · exact Or.inl (by simp [allRemoteIds])
          · rcases hce.ridsOut i hi with h2 | h2
            · refine Or.inl ?_
              simp only [allRemoteIds, List.mem_cons, List.mem_append]
              exact Or.inr (Or.inl h2)
            · exact Or.inr ⟨h2.1, lt_of_lt_of_le h2.2 hre.supplyLe⟩
          · rcases hre.ridsOut i hi with h2 | h2
            · refine Or.inl ?_
              simp only [allRemoteIds, List.mem_cons, List.mem_append]
              exact Or.inr (Or.inr h2)
            · exact Or.inr ⟨le_trans hce.supplyLe h2.1, h2.2⟩
      · -- a live record by remote id: the folder was deleted locally
        simp only [hfind, htr, if_true] at h
        rcases hrest : syncRemote now rest pid pending D
            (delete_record db (D ++ [rname])) supply with e | r2
        · rw [hrest] at h; cases h
        rw [hrest] at h
        simp only [Except.ok.injEq] at h
        subst h
        have hcons1 : ConsistentWith D rest (delete_record db (D ++ [rname])) :=
          fun rec hm pi hpi hi => hconsR rec (mem_delete_record.mp hm).1 pi hpi hi
        have hF1 : ∀ rec ∈ delete_record db (D ++ [rname]), rec.remoteId < supply :=
          fun rec hm => hF rec (mem_delete_record.mp hm).1
        have hre := ih pending pid D _ supply r2 hrok hrnodup hpend
          (dbPathsNodup_delete hP) (dbIdsNodup_delete hI) hcons1 hridsF hF1 hrest
        refine ⟨?_, ?_, ?_, ?_, ?_, ?_, ?_, ?_, ?_, ?_, ?_, ?_, ?_, ?_⟩
        · exact hre.aligned
        · intro op hop
          replace hop : op ∈ DbOp.delete (D ++ [rname]) :: r2.dbOps := hop
          rcases List.mem_cons.mp hop with rfl | hop
          · exact ⟨rname, [], rfl, Or.inr (by simp [remoteNames])⟩
          · obtain ⟨n2, s2, hp2, hn2⟩ := hre.opsPath op hop
            refine ⟨n2, s2, hp2, ?_⟩
            rcases hn2 with hn2 | hn2
            · exact Or.inl hn2
            · exact Or.inr (by simp [remoteNames, hn2])
        · intro op hop i hi
          replace hop : op ∈ DbOp.delete (D ++ [rname]) :: r2.dbOps := hop
          rcases List.mem_cons.mp hop with rfl | hop
          · cases hi
          · rcases hre.opsInsId op hop i hi with h2 | h2
            · refine Or.inl ?_
              simp only [allRemoteIds, List.mem_cons, List.mem_append]
              exact Or.inr (Or.inr h2)
            · exact Or.inr h2
        · exact hre.supplyLe
        · intro rec hm havoidP havoidI
          replace havoidP : ∀ op ∈ DbOp.delete (D ++ [rname]) :: r2.dbOps,
            dbOpPath op ≠ rec.localPath := havoidP
          replace havoidI : ∀ op ∈ DbOp.delete (D ++ [rname]) :: r2.dbOps,
            dbOpInsertId op ≠ some rec.remoteId := havoidI
          show rec ∈ r2.ledger
          refine hre.pres rec ?_
            (fun op hop => havoidP op (List.mem_cons_of_mem _ hop))
            (fun op hop => havoidI op (List.mem_cons_of_mem _ hop))
          exact delete_record_keeps hm
            (fun hc2 => havoidP _ (List.mem_cons_self _ _) (by simp [dbOpPath, hc2]))
        · exact hre.nodupP
        · exact hre.nodupI
        · exact hre.freshOut
        · intro rec hm
          replace hm : rec ∈ r2.ledger := hm
          rcases hre.newRec rec hm with hmm | ⟨ll, lr, hins⟩
          · exact Or.inl (mem_delete_record.mp hmm).1
          · refine Or.inr ⟨ll, lr, ?_⟩
            show _ ∈ DbOp.delete (D ++ [rname]) :: r2.dbOps
            exact List.mem_cons_of_mem _ hins
        · exact hre.lPathsOK
        · exact hre.lNamesOK
        · intro n hn
          replace hn : n ∈ localNames r2.localOut := hn
          rcases hre.lNamesSub n hn with h2 | h2
          · exact Or.inl h2
          · exact Or.inr (by simp [remoteNames, h2])
        · intro n hn
          replace hn : n ∈ remoteNames r2.remoteOut := hn
          rcases hre.rNamesSub n hn with h2 | h2
          · exact Or.inl h2
          · exact Or.inr (by simp [remoteNames, h2])
        · intro i hi
          replace hi : i ∈ allRemoteIds r2.remoteOut := hi
          rcases hre.ridsOut i hi with h2 | h2
          · refine Or.inl ?_
            simp only [allRemoteIds, List.mem_cons, List.mem_append]
            exact Or.inr (Or.inr h2)
          · exact Or.inr h2
    · rcases v with ⟨vn, vp, vm⟩ | ⟨vn, lpath, lmtime, vc⟩
      · -- a remote folder whose name matches a local file: TypeError
        simp only [hfind] at h
        cases h
      · -- a name-matched local directory: recurse on the stripped children
        obtain ⟨hvn, hlp, hcpok, hcnok⟩ := pendingOK_pstripped hpend hfind
        simp only [hfind] at h
        rcases hchild : syncRemote now c rid (buildLocalDict vc) (D ++ [rname])
            db supply with e | rc
        · rw [hchild] at h; cases h
        simp only [hchild] at h
        rcases hrest : syncRemote now rest pid (dictErase pending rname) D
            rc.ledger rc.supply with e | r2
        · rw [hrest] at h; cases h
        rw [hrest] at h
        simp only [Except.ok.injEq] at h
        subst h
        have hkeyserase : rname ∉ dictKeys (dictErase pending rname) :=
          self_notMem_dictKeys_erase
        have hce := ihc (buildLocalDict vc) rid (D ++ [rname]) db supply rc hcok hcnodup
          (pendingOK_build hcpok hcnok) hP hI hconsC hcidF hF hchild
        have hconsR2 : ConsistentWith D rest rc.ledger := by
          intro rec hm pi hpi hi
          rcases hce.newRec rec hm with hold | ⟨ll, lr, hins⟩
          · exact hconsR rec hold pi hpi hi
          · exfalso
            rcases hce.opsInsId _ hins rec.remoteId rfl with hcm | ⟨h1, h2⟩
            · have h4 := entry_id_mem pi hpi
              rw [← hi] at h4
              exact hdisj _ hcm h4
            · have h3 := hridsF pi.2 (entry_id_mem pi hpi)
              omega
        have hridsF2 : ∀ i ∈ allRemoteIds rest, i < rc.supply :=
          fun i hi => lt_of_lt_of_le (hridsF i hi) hce.supplyLe
        have hre := ih (dictErase pending rname) pid D rc.ledger rc.supply r2 hrok
          hrnodup (pendingOK_erase hpend) hce.nodupP hce.nodupI hconsR2 hridsF2
          hce.freshOut hrest
        have hstart : ∀ rec ∈ db, StrictUnder (D ++ [rname]) rec.localPath →
            rec.remoteId ∉ allRemoteIds rest := by
          intro rec hm hu
          exact consistent_not_id_of_path_head hcons
            (fun pi hpi => entries_folder_rest hpi) hm (strictUnder_head hu) hnotin
        have hchildok := child_recs_ok hce hstart hF hdisj hcidF hridsF
        have hkeep : ∀ rec ∈ rc.ledger, StrictUnder (D ++ [rname]) rec.localPath →
            rec ∈ r2.ledger := by
          intro rec hm hu
          exact rec_survives_estab hre hm (strictUnder_head hu) hkeyserase hnotin
            (hchildok rec hm hu).1 (hchildok rec hm hu).2
        have halC : AlignedPend r2.ledger rc.remoteOut (buildLocalDict rc.localOut) :=
          alignedPend_mono rc.remoteOut (buildLocalDict rc.localOut) (D ++ [rname])
            rc.ledger r2.ledger hce.aligned (pendingOK_build hce.lPathsOK hce.lNamesOK) hkeep
        have hkout : rname ∉ localNames r2.localOut := by
          intro hmem
          rcases hre.lNamesSub rname hmem with hmem2 | hmem2
          · exact hkeyserase hmem2
          · exact hnotin hmem2
        have hlnok : localNamesOK
            (.ldir rname lpath lmtime rc.localOut r2.localOut) = true := by
          simp only [localNamesOK, Bool.and_eq_true, Bool.not_eq_true']
          exact ⟨⟨by simpa using hkout, hce.lNamesOK⟩, hre.lNamesOK⟩
        refine ⟨?_, ?_, ?_, ?_, ?_, ?_, ?_, ?_, ?_, ?_, ?_, ?_, ?_, ?_⟩
        · show AlignedPend r2.ledger (.rfolder rid rname rm rc.remoteOut r2.remoteOut)
            (buildLocalDict (.ldir rname lpath lmtime rc.localOut r2.localOut))
          rw [buildLocalDict_eq hlnok]
          simp only [listingPairs, AlignedPend]
          constructor
          · exact ⟨rname, lpath, lmtime, rc.localOut, dictFind_cons_self, halC⟩
          · rw [dictErase_cons_self, ← buildLocalDict_eq hre.lNamesOK]
            · exact hre.aligned
            · intro kv2 hkv2 hcontra
              apply hkout
              rw [← dictKeys_listingPairs, ← hcontra]
              exact List.mem_map_of_mem _ hkv2
        · intro op hop
          replace hop : op ∈ rc.dbOps ++ r2.dbOps := hop
          rcases List.mem_append.mp hop with hop | hop
          · obtain ⟨n2, s2, hp2, hn2⟩ := hce.opsPath op hop
            refine ⟨rname, n2 :: s2, ?_, Or.inr (by simp [remoteNames])⟩
            rw [hp2]
            simp
          · obtain ⟨n2, s2, hp2, hn2⟩ := hre.opsPath op hop
            refine ⟨n2, s2, hp2, ?_⟩
            rcases hn2 with hn2 | hn2
            · exact Or.inl (dictKeys_erase_subset hn2).1
            · exact Or.inr (by simp [remoteNames, hn2])
        · intro op hop i hi
          replace hop : op ∈ rc.dbOps ++ r2.dbOps := hop
          rcases List.mem_append.mp hop with hop | hop
          · rcases hce.opsInsId op hop i hi with h2 | h2
            · refine Or.inl ?_
              simp only [allRemoteIds, List.mem_cons, List.mem_append]
              exact Or.inr (Or.inl h2)
            · exact Or.inr ⟨h2.1, lt_of_lt_of_le h2.2 hre.supplyLe⟩
          · rcases hre.opsInsId op hop i hi with h2 | h2
            · refine Or.inl ?_
              simp only [allRemoteIds, List.mem_cons, List.mem_append]
              exact Or.inr (Or.inr h2)
            · exact Or.inr ⟨le_trans hce.supplyLe h2.1, h2.2⟩
        · exact le_trans hce.supplyLe hre.supplyLe
        · intro rec hm havoidP havoidI
          replace havoidP : ∀ op ∈ rc.dbOps ++ r2.dbOps,
            dbOpPath op ≠ rec.localPath := havoidP
          replace havoidI : ∀ op ∈ rc.dbOps ++ r2.dbOps,
            dbOpInsertId op ≠ some rec.remoteId := havoidI
          show rec ∈ r2.ledger
          refine hre.pres rec (hce.pres rec hm
              (fun op hop => havoidP op (List.mem_append.mpr (Or.inl hop)))
              (fun op hop => havoidI op (List.mem_append.mpr (Or.inl hop))))
            (fun op hop => havoidP op (List.mem_append.mpr (Or.inr hop)))
            (fun op hop => havoidI op (List.mem_append.mpr (Or.inr hop)))
        · exact hre.nodupP
        · exact hre.nodupI
        · exact hre.freshOut
        · intro rec hm
          replace hm : rec ∈ r2.ledger := hm
          rcases hre.newRec rec hm with hmm | ⟨ll, lr, hins⟩
          · rcases hce.newRec rec hmm with hdb | ⟨ll2, lr2, hins2⟩
            · exact Or.inl hdb
            · refine Or.inr ⟨ll2, lr2, ?_⟩
              show _ ∈ rc.dbOps ++ r2.dbOps
              exact List.mem_append.mpr (Or.inl hins2)
          · refine Or.inr ⟨ll, lr, ?_⟩
            show _ ∈ rc.dbOps ++ r2.dbOps
            exact List.mem_append.mpr (Or.inr hins)
        · show localPathsOK D
            (.ldir rname lpath lmtime rc.localOut r2.localOut) = true
          simp only [localPathsOK, Bool.and_eq_true, beq_iff_eq]
          exact ⟨⟨hlp, hce.lPathsOK⟩, hre.lPathsOK⟩
        · exact hlnok
        · intro n hn
          replace hn : n ∈ localNames
            (.ldir rname lpath lmtime rc.localOut r2.localOut) := hn
          simp only [localNames, List.mem_cons] at hn
          rcases hn with rfl | hn
          · exact Or.inl (dictKeys_of_find_some hfind)
          · rcases hre.lNamesSub n hn with h2 | h2
            · exact Or.inl (dictKeys_erase_subset h2).1
            · exact Or.inr (by simp [remoteNames, h2])
        · intro n hn
          replace hn : n ∈ remoteNames
            (.rfolder rid rname rm rc.remoteOut r2.remoteOut) := hn
          simp only [remoteNames, List.mem_cons] at hn
          rcases hn with rfl | hn
          · exact Or.inl (dictKeys_of_find_some hfind)
          · rcases hre.rNamesSub n hn with h2 | h2
            · exact Or.inl (dictKeys_erase_subset h2).1
            · exact Or.inr (by simp [remoteNames, h2])
        · intro i hi
          replace hi : i ∈ allRemoteIds
            (.rfolder rid rname rm rc.remoteOut r2.remoteOut) := hi
          simp only [allRemoteIds, List.mem_cons, List.mem_append] at hi
          rcases hi with rfl | hi | hi
          · exact Or.inl (by simp [allRemoteIds])
          · rcases hce.ridsOut i hi with h2 | h2
            · refine Or.inl ?_
              simp only [allRemoteIds, List.mem_cons, List.mem_append]
              exact Or.inr (Or.inl h2)
            · exact Or.inr ⟨h2.1, lt_of_lt_of_le h2.2 hre.supplyLe⟩
          · rcases hre.ridsOut i hi with h2 | h2
            · refine Or.inl ?_
              simp only [allRemoteIds, List.mem_cons, List.mem_append]
              exact Or.inr (Or.inr h2)
            · exact Or.inr ⟨le_trans hce.supplyLe h2.1, h2.2⟩

/-! ### Claim theorems: concrete scenarios -/

/-- C3: for a name-matched local file with mtime 100 against a remote
file with mtime 50, a ledger record with lastLocalModifiedAt 100 makes
reconcile a no-op that leaves the record unchanged, while a record with
lastLocalModifiedAt 90 makes it push the local content over the remote
file and update the record to lastLocalModifiedAt 100. -/
theorem claim_C3_timestamp_tie_break :
    compare_and_sync_files 1000 (.rfile 1 "x" 50 .rnil) 0
        (.lfile "x" ["x"] 100 .lnil) [] [⟨["x"], 1, 100, 40⟩] 50 =
      .ok ⟨[], [], [⟨["x"], 1, 100, 40⟩], 50,
        .lfile "x" ["x"] 100 .lnil, .rfile 1 "x" 50 .rnil⟩ ∧
    compare_and_sync_files 1000 (.rfile 1 "x" 50 .rnil) 0
        (.lfile "x" ["x"] 100 .lnil) [] [⟨["x"], 1, 90, 40⟩] 50 =
      .ok ⟨[.overwriteRemoteFileWithLocal 1 ["x"]], [.insert ["x"] 1 100 1000],
        [⟨["x"], 1, 100, 1000⟩], 50,
        .lfile "x" ["x"] 100 .lnil, .rfile 1 "x" 1000 .rnil⟩ :=
  ⟨rfl, rfl⟩

/-- C9: with local A/B/file.txt (mtime 10) and a remote folder A whose
folder B holds no matching file, one pass creates file.txt inside the
remote B, and the ledger ends with exactly two records — the root pair A
and A/B/file.txt — and none for the name-matched intermediate folder
B. -/
theorem claim_C9_recursive_folder_scenario :
    process_dir_pair 100 ["A"] 3 1 4
        (.rfolder 2 "B" 5 .rnil .rnil)
        (.ldir "B" ["A", "B"] 6 (.lfile "file.txt" ["A", "B", "file.txt"] 10 .lnil) .lnil)
        [] 50 =
      .ok ([.insert ["A"] 1 3 4, .insert ["A", "B", "file.txt"] 50 10 100],
        ⟨[.copyLocalFileToRemote ["A", "B", "file.txt"] 2],
         [.insert ["A", "B", "file.txt"] 50 10 100],
         [⟨["A"], 1, 3, 4⟩, ⟨["A", "B", "file.txt"], 50, 10, 100⟩],
         51,
         .ldir "B" ["A", "B"] 6 (.lfile "file.txt" ["A", "B", "file.txt"] 10 .lnil) .lnil,
         .rfolder 2 "B" 5 (.rfile 50 "file.txt" 100 .rnil) .rnil⟩) ∧
    ([⟨["A"], 1, 3, 4⟩, ⟨["A", "B", "file.txt"], 50, 10, 100⟩] : Ledger).all
      (fun rec => !(rec.localPath == ["A", "B"])) = true :=
  ⟨rfl, rfl⟩

/-- C4: the claim requires a local entry that has a ledger record and no
remote counterpart to be deleted together with its record; for a local
directory the code instead raises AttributeError, because the leftover
dict built at lines 74-80 holds the bare children list and the else
branch of `_copy_local_to_remote` runs `.path` on it.  The remote side
and the local-file side do behave as claimed, but the local-directory
case aborts the pass. -/
theorem claim_C4_local_dir_delete_crashes :
    get_remote_file_id [⟨["d"], 3, 1, 1⟩] ["d"] = some 3 ∧
    compare_and_sync_files 100 .rnil 0 (.ldir "d" ["d"] 5 .lnil .lnil) []
        [⟨["d"], 3, 1, 1⟩] 50 = .error .attributeError :=
  ⟨rfl, rfl⟩

/-- C5: the claim requires a local-only folder with no ledger record to
be created remotely with all its descendants; the code instead raises
AttributeError on any leftover local directory (stripped to a bare list
at line 78, failing the dict test at line 205), for any directory name,
path, mtime, children and ledger-free state. -/
theorem claim_C5_local_only_dir_create_crashes :
    get_remote_file_id [] ["d"] = none ∧
    compare_and_sync_files 100 .rnil 0 (.ldir "d" ["d"] 5 .lnil .lnil) [] [] 50 =
      .error .attributeError :=
  ⟨rfl, rfl⟩

/-- C6: one failing entry aborts the whole reconciliation call instead
of being isolated: a remote file whose name collides with a local
directory raises AttributeError (line 128 runs `.stat()` on the stripped
children list), and the sibling remote file b — a remote-only file that
a completed pass would have pulled — is never processed because the pass
ends with the error. -/
theorem claim_C6_failing_entry_aborts_pass :
    compare_and_sync_files 100 (.rfile 7 "a" 50 (.rfile 8 "b" 60 .rnil)) 0
        (.ldir "a" ["a"] 5 .lnil .lnil) [] [] 50 = .error .attributeError :=
  rfl

/-- C7: for every non-empty observer registry, `stop_sync` raises
AttributeError on the first element and stops no observer: it iterates
the dict keys — the local directory path strings — and calls `.stop()`
on a string. -/
theorem claim_C7_stop_sync_raises (k : String) (o : Nat) (rest : List (String × Nat)) :
    stop_sync ((k, o) :: rest) = .error .attributeError :=
  rfl

/-! ### Claim counterexamples -/

/-- C1 fails as stated: from the given listings and ledger the first
pass succeeds (it propagates the deletion of local file q, whose record
pointed at remote id 7), and the second pass — run on exactly the state
the first pass left behind — still performs a pull and a ledger insert,
because the first pass deleted the very record that had been blocking
the pull of the name-matched pair x. -/
theorem claim_C1_counterexample :
    compare_and_sync_files 1000 (.rfile 7 "x" 150 .rnil) 0
        (.lfile "x" ["x"] 50 (.lfile "q" ["q"] 30 .lnil)) []
        [⟨["q"], 7, 10, 200⟩] 100 =
      .ok ⟨[.deleteFileFromLocal ["q"]], [.delete ["q"]], [], 100,
        .lfile "x" ["x"] 50 .lnil, .rfile 7 "x" 150 .rnil⟩ ∧
    compare_and_sync_files 1000 (.rfile 7 "x" 150 .rnil) 0
        (.lfile "x" ["x"] 50 .lnil) [] [] 100 =
      .ok ⟨[.copyRemoteFileToLocal ["x"] 7], [.insert ["x"] 7 1000 150],
        [⟨["x"], 7, 1000, 150⟩], 100,
        .lfile "x" ["x"] 1000 .lnil, .rfile 7 "x" 150 .rnil⟩ :=
  ⟨rfl, rfl⟩

/-- C2 fails as stated: the first pass performs only a pull (the only
change to the listings is its own propagation), yet the second pass
performs another pull: the upsert for the pulled pair q evicted the row
that shared its local path and had been blocking the pull of pair x, so
pass two is not action-free. -/
theorem claim_C2_counterexample :
    compare_and_sync_files 1000 (.rfile 7 "x" 150 (.rfile 9 "q" 300 .rnil)) 0
        (.lfile "q" ["q"] 20 (.lfile "x" ["x"] 50 .lnil)) []
        [⟨["q"], 7, 10, 200⟩] 100 =
      .ok ⟨[.copyRemoteFileToLocal ["q"] 9], [.insert ["q"] 9 1000 300],
        [⟨["q"], 9, 1000, 300⟩], 100,
        .lfile "x" ["x"] 50 (.lfile "q" ["q"] 1000 .lnil),
        .rfile 7 "x" 150 (.rfile 9 "q" 300 .rnil)⟩ ∧
    ([Action.copyRemoteFileToLocal ["q"] 9].all isPushOrPull) = true ∧
    compare_and_sync_files 1000 (.rfile 7 "x" 150 (.rfile 9 "q" 300 .rnil)) 0
        (.lfile "x" ["x"] 50 (.lfile "q" ["q"] 1000 .lnil)) []
        [⟨["q"], 9, 1000, 300⟩] 100 =
      .ok ⟨[.copyRemoteFileToLocal ["x"] 7], [.insert ["x"] 7 1000 150],
        [⟨["q"], 9, 1000, 300⟩, ⟨["x"], 7, 1000, 150⟩], 100,
        .lfile "x" ["x"] 1000 (.lfile "q" ["q"] 1000 .lnil),
        .rfile 7 "x" 150 (.rfile 9 "q" 300 .rnil)⟩ :=
  ⟨rfl, rfl, rfl⟩

/-- C8 fails as stated: the pass writes the row at path x with
lastRemoteModifiedAt 150, while the row previously stored at that path
carried lastRemoteModifiedAt 600 — the successive write decreases the
field.  The pull fired because the pull branch consults the ledger by
remote id and found the unrelated row (q, 7), not the row at the written
path. -/
theorem claim_C8_counterexample :
    (([⟨["x"], 99, 90, 600⟩, ⟨["q"], 7, 10, 20⟩] : Ledger).find?
        (fun rec => rec.localPath == ["x"])) = some ⟨["x"], 99, 90, 600⟩ ∧
    compare_and_sync_files 1000 (.rfile 7 "x" 150 .rnil) 0
        (.lfile "x" ["x"] 50 .lnil) []
        [⟨["x"], 99, 90, 600⟩, ⟨["q"], 7, 10, 20⟩] 100 =
      .ok ⟨[.copyRemoteFileToLocal ["x"] 7], [.insert ["x"] 7 1000 150],
        [⟨["x"], 7, 1000, 150⟩], 100,
        .lfile "x" ["x"] 1000 .lnil, .rfile 7 "x" 150 .rnil⟩ ∧
    (150 : Nat) < 600 :=
  ⟨rfl, rfl, by decide⟩

/-- C10 fails as stated: the pass propagates the deletion of remote
folder d (deleting only the record at its own path and not recursing),
yet the descendant record at path d/c does not survive the pass — a
later pull upsert evicted it because it shared the remote id 9 of the
pulled file y. -/
theorem claim_C10_counterexample :
    compare_and_sync_files 1000
        (.rfolder 7 "d" 5 (.rfile 8 "c" 5 .rnil) (.rfile 9 "y" 500 .rnil)) 0
        (.lfile "y" ["y"] 20 .lnil) []
        [⟨["d"], 7, 1, 1⟩, ⟨["d", "c"], 9, 1, 1⟩] 100 =
      .ok ⟨[.deleteFileOnRemote 7, .copyRemoteFileToLocal ["y"] 9],
        [.delete ["d"], .insert ["y"] 9 1000 500],
        [⟨["y"], 9, 1000, 500⟩], 100,
        .lfile "y" ["y"] 1000 .lnil, .rfile 9 "y" 500 .rnil⟩ ∧
    (⟨["d", "c"], 9, 1, 1⟩ : LedgerRecord) ∈
      ([⟨["d"], 7, 1, 1⟩, ⟨["d", "c"], 9, 1, 1⟩] : Ledger) ∧
    (⟨["d", "c"], 9, 1, 1⟩ : LedgerRecord) ∉ ([⟨["y"], 9, 1000, 500⟩] : Ledger) :=
  ⟨rfl, by decide, by decide⟩


/-- C1 (amended): under well-formed listings (unique names per level,
unique remote ids, correct stored paths), a well-keyed ledger consistent
with the remote listing, and a fresh-id counter above every id in use, a
successful reconciliation pass leaves a state on which an immediate
second pass — at any later clock — performs no action and no ledger
operation. -/
theorem claim_C1_idempotent_amended (now : Nat) (rl : RemoteListing) (pid : Nat)
    (ll : LocalListing) (D : LocalPath) (db : Ledger) (supply : Nat) (res : SyncResult)
    (hrn : remoteNamesOK rl = true) (hrids : (allRemoteIds rl).Nodup)
    (hlp : localPathsOK D ll = true) (hln : localNamesOK ll = true)
    (hdp : dbPathsNodup db) (hdi : dbIdsNodup db)
    (hcons : ConsistentWith D rl db) (hfs : FreshSupply supply rl db)
    (hrun : compare_and_sync_files now rl pid ll D db supply = .ok res) :
    ∀ now2, ∃ res2, compare_and_sync_files now2 res.remoteOut pid res.localOut D
        res.ledger res.supply = .ok res2 ∧ res2.actions = [] ∧ res2.dbOps = [] ∧
      res2.ledger = res.ledger := by
  intro now2
  have he := syncRemote_estab now rl (buildLocalDict ll) pid D db supply res hrn hrids
    (pendingOK_build hlp hln) hdp hdi hcons hfs.1 hfs.2 hrun
  have hsync := aligned_synced he.nodupP he.nodupI res.remoteOut
    (buildLocalDict res.localOut) he.aligned
  obtain ⟨lout, rout, hrun2⟩ := synced_no_ops now2 res.remoteOut
    (buildLocalDict res.localOut) pid D res.ledger res.supply hsync
  exact ⟨⟨[], [], res.ledger, res.supply, lout, rout⟩, hrun2, rfl, rfl, rfl⟩

/-- C1 witness: a pull of a genuinely new remote file, after which the
second pass is action-free and leaves the ledger unchanged. -/
theorem claim_C1_idempotent_amended_witness :
    ∃ res2, compare_and_sync_files 61 (.rfile 7 "x" 50 .rnil) 3
        (.lfile "x" ["x"] 60 .lnil) [] [⟨["x"], 7, 60, 50⟩] 100 = .ok res2 ∧
      res2.actions = [] ∧ res2.dbOps = [] ∧ res2.ledger = [⟨["x"], 7, 60, 50⟩] :=
  claim_C1_idempotent_amended 60 (.rfile 7 "x" 50 .rnil) 3 (.lfile "x" ["x"] 10 .lnil)
    [] [] 100
    ⟨[.copyRemoteFileToLocal ["x"] 7], [.insert ["x"] 7 60 50], [⟨["x"], 7, 60, 50⟩],
      100, .lfile "x" ["x"] 60 .lnil, .rfile 7 "x" 50 .rnil⟩
    (by decide) (by decide) (by decide) (by decide) (by decide) (by decide)
    (by decide) (by decide) rfl 61

/-- C2 (amended): under the same well-formedness, after a successful
pass whose actions are all pushes and pulls (a propagation-only pass),
the next pass — at any later clock — performs no push and no pull. -/
theorem claim_C2_no_loop_amended (now : Nat) (rl : RemoteListing) (pid : Nat)
    (ll : LocalListing) (D : LocalPath) (db : Ledger) (supply : Nat) (res : SyncResult)
    (hrn : remoteNamesOK rl = true) (hrids : (allRemoteIds rl).Nodup)
    (hlp : localPathsOK D ll = true) (hln : localNamesOK ll = true)
    (hdp : dbPathsNodup db) (hdi : dbIdsNodup db)
    (hcons : ConsistentWith D rl db) (hfs : FreshSupply supply rl db)
    (hrun : compare_and_sync_files now rl pid ll D db supply = .ok res)
    (hpp : res.actions.all isPushOrPull = true) :
    ∀ now2, ∃ res2, compare_and_sync_files now2 res.remoteOut pid res.localOut D
        res.ledger res.supply = .ok res2 ∧ ∀ a ∈ res2.actions, isPushOrPull a = false := by
  intro now2
  have he := syncRemote_estab now rl (buildLocalDict ll) pid D db supply res hrn hrids
    (pendingOK_build hlp hln) hdp hdi hcons hfs.1 hfs.2 hrun
  have hsync := aligned_synced he.nodupP he.nodupI res.remoteOut
    (buildLocalDict res.localOut) he.aligned
  obtain ⟨lout, rout, hrun2⟩ := synced_no_ops now2 res.remoteOut
    (buildLocalDict res.localOut) pid D res.ledger res.supply hsync
  refine ⟨⟨[], [], res.ledger, res.supply, lout, rout⟩, hrun2, ?_⟩
  intro a ha
  replace ha : a ∈ ([] : List Action) := ha
  cases ha

/-- C2 witness: a push-only pass, after which the next pass performs no
push and no pull. -/
theorem claim_C2_no_loop_amended_witness :
    ∃ res2, compare_and_sync_files 99 (.rfile 5 "y" 70 .rnil) 2
        (.lfile "y" ["y"] 40 .lnil) [] [⟨["y"], 5, 40, 70⟩] 50 = .ok res2 ∧
      ∀ a ∈ res2.actions, isPushOrPull a = false :=
  claim_C2_no_loop_amended 70 (.rfile 5 "y" 20 .rnil) 2 (.lfile "y" ["y"] 40 .lnil)
    [] [] 50
    ⟨[.overwriteRemoteFileWithLocal 5 ["y"]], [.insert ["y"] 5 40 70],
      [⟨["y"], 5, 40, 70⟩], 50, .lfile "y" ["y"] 40 .lnil, .rfile 5 "y" 70 .rnil⟩
    (by decide) (by decide) (by decide) (by decide) (by decide) (by decide)
    (by decide) (by decide) rfl (by decide) 99

/-- C8 (amended): for a ledger whose keys are unique, the row backing a
matched file pair only moves forward: every ledger write the matched-file
comparison emits targets that row's path and id, and carries timestamps
at least the stored ones, provided the clock is not behind the row. -/
theorem claim_C8_monotonicity_amended (now : Nat) (db : Ledger) (lpath : LocalPath)
    (lm rid rm : Nat) (rec : LedgerRecord)
    (hdp : dbPathsNodup db) (hdi : dbIdsNodup db) (hm : rec ∈ db)
    (hrp : rec.localPath = lpath) (hrid : rec.remoteId = rid)
    (hl : rec.lastLocalModifiedAt ≤ now) (hr : rec.lastRemoteModifiedAt ≤ now) :
    ∀ op ∈ (processMatchedFile now db lpath lm rid rm).dbOps,
      ∃ ll lr, op = .insert lpath rid ll lr ∧
        rec.lastLocalModifiedAt ≤ ll ∧ rec.lastRemoteModifiedAt ≤ lr := by
  intro op hop
  simp only [processMatchedFile, glmd_eq hdp hm hrp, grmd_eq hdi hm hrid] at hop
  by_cases h1 : lm > rm
  · rw [if_pos h1] at hop
    by_cases h2 : pyFalsyNat (some rec.lastLocalModifiedAt) = true ∨
        lm > (some rec.lastLocalModifiedAt).getD 0
    · rw [if_pos h2] at hop
      replace hop : op ∈ [DbOp.insert lpath rid lm now] := hop
      rw [List.mem_singleton] at hop
      subst hop
      refine ⟨lm, now, rfl, ?_, hr⟩
      rcases h2 with h2 | h2
      · simp only [pyFalsyNat, beq_iff_eq] at h2
        omega
      · simp only [Option.getD] at h2
        omega
    · rw [if_neg h2] at hop
      cases hop
  · rw [if_neg h1] at hop
    by_cases h3 : rm > lm
    · rw [if_pos h3] at hop
      by_cases h2 : pyFalsyNat (some rec.lastRemoteModifiedAt) = true ∨
          rm > (some rec.lastRemoteModifiedAt).getD 0
      · rw [if_pos h2] at hop
        replace hop : op ∈ [DbOp.insert lpath rid now rm] := hop
        rw [List.mem_singleton] at hop
        subst hop
        refine ⟨now, rm, rfl, hl, ?_⟩
        rcases h2 with h2 | h2
        · simp only [pyFalsyNat, beq_iff_eq] at h2
          omega
        · simp only [Option.getD] at h2
          omega
      · rw [if_neg h2] at hop
        cases hop
    · rw [if_neg h3] at hop
      cases hop

/-- C8 witness: a push over the row (50, 60) at clock 200 writes the
timestamps (100, 200), both moved forward. -/
theorem claim_C8_monotonicity_amended_witness :
    ∃ ll lr, DbOp.insert (["x"] : LocalPath) 7 100 200 = DbOp.insert ["x"] 7 ll lr ∧
      50 ≤ ll ∧ 60 ≤ lr :=
  claim_C8_monotonicity_amended 200 [⟨["x"], 7, 50, 60⟩] ["x"] 100 7 40
    ⟨["x"], 7, 50, 60⟩ (by decide) (by decide) (by decide) rfl rfl
    (by decide) (by decide) (DbOp.insert ["x"] 7 100 200) (by decide)

/-- C10 (amended): when the pass propagates the deletion of a remote
folder that is absent locally but has a live ledger record, it emits the
delete of that folder's own record, and — under the well-formedness and
consistency hypotheses — every ledger record for a path strictly below
the deleted folder survives the whole pass. -/
theorem claim_C10_frame_amended (now rid : Nat) (rname : String) (rm : Nat)
    (c rest : RemoteListing) (pid : Nat) (pending : List (String × PendVal))
    (D : LocalPath) (db : Ledger) (supply : Nat) (res : SyncResult)
    (hrn : remoteNamesOK (.rfolder rid rname rm c rest) = true)
    (hrids : (allRemoteIds (.rfolder rid rname rm c rest)).Nodup)
    (hpend : PendingOK D pending)
    (hdp : dbPathsNodup db) (hdi : dbIdsNodup db)
    (hcons : ConsistentWith D (.rfolder rid rname rm c rest) db)
    (hfs : FreshSupply supply (.rfolder rid rname rm c rest) db)
    (hfind : dictFind pending rname = none)
    (htr : pyTruthyPath (get_local_file_path db rid) = true)
    (hrun : syncRemote now (.rfolder rid rname rm c rest) pid pending D db supply =
      .ok res) :
    DbOp.delete (D ++ [rname]) ∈ res.dbOps ∧
      ∀ rec ∈ db, StrictUnder (D ++ [rname]) rec.localPath → rec ∈ res.ledger := by
  obtain ⟨hnotin, hcok, hrok⟩ := namesOK_folder hrn
  obtain ⟨hcnodup, hrnodup, hdisj, hridc, hridr⟩ := nodup_ids_folder hrids
  have hkeys0 : rname ∉ dictKeys pending := notMem_dictKeys_of_find_none hfind
  simp only [syncRemote, hfind, htr, if_true] at hrun
  rcases hrest : syncRemote now rest pid pending D (delete_record db (D ++ [rname]))
      supply with e | r2
  · rw [hrest] at hrun; cases hrun
  rw [hrest] at hrun
  simp only [Except.ok.injEq] at hrun
  subst hrun
  have hconsR : ConsistentWith D rest db :=
    fun rec hm pi hpi hi => hcons rec hm pi (entries_folder_rest hpi) hi
  have hcons1 : ConsistentWith D rest (delete_record db (D ++ [rname])) :=
    fun rec hm pi hpi hi => hconsR rec (mem_delete_record.mp hm).1 pi hpi hi
  have hridsF : ∀ i ∈ allRemoteIds rest, i < supply := by
    intro i hi
    refine hfs.1 i ?_
    simp only [allRemoteIds, List.mem_cons, List.mem_append]
    exact Or.inr (Or.inr hi)
  have hF1 : ∀ rec ∈ delete_record db (D ++ [rname]), rec.remoteId < supply :=
    fun rec hm => hfs.2 rec (mem_delete_record.mp hm).1
  have hre := syncRemote_estab now rest pending pid D (delete_record db (D ++ [rname]))
    supply r2 hrok hrnodup hpend (dbPathsNodup_delete hdp) (dbIdsNodup_delete hdi)
    hcons1 hridsF hF1 hrest
  constructor
  · show DbOp.delete (D ++ [rname]) ∈ DbOp.delete (D ++ [rname]) :: r2.dbOps
    exact List.mem_cons_self _ _
  · intro rec hm hu
    have hne : rec.localPath ≠ D ++ [rname] := by
      intro heq
      rw [heq] at hu
      exact not_strictUnder_self (D ++ [rname]) hu
    have hid : rec.remoteId ∉ allRemoteIds rest :=
      consistent_not_id_of_path_head hcons (fun pi hpi => entries_folder_rest hpi)
        hm (strictUnder_head hu) hnotin
    show rec ∈ r2.ledger
    exact rec_survives_estab hre (delete_record_keeps hm hne) (strictUnder_head hu)
      hkeys0 hnotin hid (hfs.2 rec hm)

/-- C10 witness: deleting remote folder d leaves the record of its
descendant d/c in the ledger. -/
theorem claim_C10_frame_amended_witness :
    DbOp.delete (["d"] : LocalPath) ∈ [DbOp.delete (["d"] : LocalPath)] ∧
      ∀ rec ∈ [(⟨["d"], 7, 1, 2⟩ : LedgerRecord), ⟨["d", "c"], 8, 3, 4⟩],
        StrictUnder ["d"] rec.localPath → rec ∈ [(⟨["d", "c"], 8, 3, 4⟩ : LedgerRecord)] :=
  claim_C10_frame_amended 50 7 "d" 5 .rnil .rnil 9 [] []
    [⟨["d"], 7, 1, 2⟩, ⟨["d", "c"], 8, 3, 4⟩] 100
    ⟨[.deleteFileOnRemote 7], [.delete ["d"]], [⟨["d", "c"], 8, 3, 4⟩], 100, .lnil, .rnil⟩
    (by decide) (by decide) (by constructor <;> simp [dictKeys]) (by decide) (by decide)
    (by decide) (by decide) rfl rfl rfl

end GdriveSync
